import Mathlib

/-!
Verification development for the quickmh_log data-integrity pipeline.

Shallow embedding of the entry model, field validator, security sanitizer,
storage adapter, rate limiter, retry helper and CSV codec, translated from
`src/js/errorHandler.js`, `security.ts`/`security.js` and
`translations.js`.  Strings are modelled as `List Char`; JS numbers are
modelled as `Int` (the application only ever stores integer scores, and the
claims under study do not exercise fractional or overflow behaviour); JS
`Date.now()` timestamps are modelled as `Nat` milliseconds.
-/

namespace QuickMH

/-- JS strings, modelled as lists of characters. -/
abbrev Str := List Char

/-- The fragment of JS values the validator and storage layer can receive. -/
inductive JSValue where
  | str : Str → JSValue
  | num : Int → JSValue
  | null : JSValue
  | undef : JSValue
deriving DecidableEq, Repr

/-- Decimal digits of `n`, most significant first, with structural fuel
(`fuel ≥ n` suffices; the fuel-exhausted fallback is unreachable then). -/
def natToDigitsGo : Nat → Nat → Str
  | 0, n => [Char.ofNat (48 + n % 10)]
  | fuel + 1, n =>
    if n < 10 then [Char.ofNat (48 + n)]
    else natToDigitsGo fuel (n / 10) ++ [Char.ofNat (48 + n % 10)]

def natToDigits (n : Nat) : Str := natToDigitsGo n n

/-- The `String(i)` for an integer JS number: standard decimal form (the
exponent form for huge magnitudes is outside the model). -/
def intToStr (i : Int) : Str :=
  if i < 0 then '-' :: natToDigits i.natAbs else natToDigits i.natAbs

/-- The `String(x)` coercion for the modelled JS values. -/
def jsToString : JSValue → Str
  | .str s => s
  | .num i => intToStr i
  | .null => "null".data
  | .undef => "undefined".data

/-- Truthiness of the modelled JS values (`''`, `0`, `null`, `undefined` are falsy). -/
def jsTruthy : JSValue → Bool
  | .str s => s ≠ []
  | .num i => i ≠ 0
  | .null => false
  | .undef => false

/-- ASCII lower-casing, the case-folding relevant to the `i` regex flag on the
ASCII-only patterns used by the source. -/
def lowerChar (c : Char) : Char :=
  if 'A' ≤ c ∧ c ≤ 'Z' then Char.ofNat (c.toNat + 32) else c

/-- Whitespace class used by JS `trim` and `\s` (ASCII fragment). -/
def isJsSpace (c : Char) : Bool :=
  c == ' ' || c == '\t' || c == '\n' || c == '\r' || c == '\x0b' || c == '\x0c'

/-- The `String.prototype.trim`: drop whitespace from both ends. -/
def jsTrim (s : Str) : Str :=
  ((s.dropWhile isJsSpace).reverse.dropWhile isJsSpace).reverse

/-- Does `s` start with `p` (exact characters)? -/
def hasPfx : Str → Str → Bool
  | [], _ => true
  | _ :: _, [] => false
  | p :: ps, c :: cs => p == c && hasPfx ps cs

/-- Does `s` start with `pat`, comparing case-insensitively (pat given lowercase)? -/
def hasPfxCI : Str → Str → Bool
  | [], _ => true
  | _ :: _, [] => false
  | p :: ps, c :: cs => p == lowerChar c && hasPfxCI ps cs

/-- Does `pat` occur anywhere in `s` (case-insensitive)? Models `/pat/i.test`. -/
def containsCI (pat : Str) (s : Str) : Bool :=
  s.tails.any (hasPfxCI pat)

/-- JS `String.prototype.split` on a single-character separator.  Always
returns at least one piece. -/
def splitOnChar (c : Char) : Str → List Str
  | [] => [[]]
  | x :: r =>
    if x = c then [] :: splitOnChar c r
    else
      match splitOnChar c r with
      | p :: ps => (x :: p) :: ps
      | [] => [[x]]

/-- JS `Array.prototype.join` on a single-character separator. -/
def joinWith (c : Char) : List Str → Str
  | [] => []
  | [l] => l
  | l :: ls => l ++ c :: joinWith c ls

/-! Section: Storage adapter (`SecureStorage`, security.ts / security.js)

The underlying `localStorage` is modelled as an association list from full
key to stored string.  The construction-time availability probe is recorded
in the `isAvailable` flag.  The optional XOR obfuscation and the
JSON-stringify branch for non-string values are orthogonal to the claims
under study and are not exercised here: values are stored as strings. -/

abbrev Store := List (Str × Str)

def storeSet (st : Store) (k v : Str) : Store :=
  st.filter (fun p => p.1 ≠ k) ++ [(k, v)]

def storeGet (st : Store) (k : Str) : Option Str :=
  (st.find? (fun p => p.1 = k)).map (·.2)

def storeRemove (st : Store) (k : Str) : Store :=
  st.filter (fun p => p.1 ≠ k)

structure SecureStorage where
  nsKey : Str
  isAvailable : Bool
deriving DecidableEq, Repr

/-- The `SecureStorage.setItem`: throws `'Storage not available'` when the
availability probe failed, otherwise stores under the namespaced key and
returns `true`. -/
def SecureStorage.setItem (a : SecureStorage) (st : Store) (k v : Str) :
    Except String (Store × Bool) :=
  if a.isAvailable = false then Except.error "Storage not available"
  else Except.ok (storeSet st (a.nsKey ++ k) v, true)

/-- The `SecureStorage.getItem`: `null` when unavailable or missing (plain,
non-decrypting read path). -/
def SecureStorage.getItem (a : SecureStorage) (st : Store) (k : Str) : Option Str :=
  if a.isAvailable = false then none
  else storeGet st (a.nsKey ++ k)

/-- The `SecureStorage.removeItem`: `false` when unavailable, else removes the
namespaced key and returns `true`. -/
def SecureStorage.removeItem (a : SecureStorage) (st : Store) (k : Str) : Store × Bool :=
  if a.isAvailable = false then (st, false)
  else (storeRemove st (a.nsKey ++ k), true)

/-- The `SecureStorage.clear`: `false` when unavailable, else removes exactly the
keys under the adapter's namespace. -/
def SecureStorage.clear (a : SecureStorage) (st : Store) : Store × Bool :=
  if a.isAvailable = false then (st, false)
  else (st.filter (fun p => ¬ hasPfx a.nsKey p.1), true)

/-! Section: Rate limiter (`SecurityManager.createRateLimiter`)

State is the per-instance list of recorded call timestamps (front = oldest).
The source's eviction test `calls[0] < now - timeWindow` is written
`c + W < now`, which is the same comparison over the integers and avoids
truncated `Nat` subtraction. -/

/-- The `while (calls.length > 0 && calls[0] < now - timeWindow) calls.shift()`
loop: evict from the front while the head is older than the window. -/
def evictOld (w now : Nat) : List Nat → List Nat
  | [] => []
  | c :: rest => if c + w < now then evictOld w now rest else c :: rest

structure RateCall (α : Type) where
  result : Except String α
  calls : List Nat
  invoked : Bool
deriving Repr

/-- One invocation of the wrapper returned by `createRateLimiter(maxCalls, w)`
at time `now` with current timestamp list `calls`, around a wrapped
operation producing `fnVal`. -/
def rateLimiterCall {α : Type} (maxCalls w : Nat) (fnVal : α)
    (calls : List Nat) (now : Nat) : RateCall α :=
  let evicted := evictOld w now calls
  if maxCalls ≤ evicted.length then
    { result := Except.error "Rate limit exceeded", calls := evicted, invoked := false }
  else
    { result := Except.ok fnVal, calls := evicted ++ [now], invoked := true }

/-- One step of a run: apply the wrapper at time `u` and record whether the
wrapped operation executed. -/
def rlStep (maxCalls w : Nat) (st : List Nat × List Bool) (u : Nat) :
    List Nat × List Bool :=
  let r := rateLimiterCall maxCalls w () st.1 u
  (r.calls, st.2 ++ [r.invoked])

/-- Run a sequence of wrapper invocations from a given state, collecting the
final timestamp list and whether each call executed the wrapped operation. -/
def rlRun (maxCalls w : Nat) (init : List Nat) (times : List Nat) :
    List Nat × List Bool :=
  times.foldl (rlStep maxCalls w) (init, [])

/-! Section: Retry helper (`RetryHandler.withRetry`)

The asynchronous operation is modelled as a function from the (1-based)
attempt number to that attempt's outcome.  `result = .error none` is the
`throw lastError` path reached with `lastError` still undefined (only
possible when `maxRetries = 0`). -/

structure RetryResult (E V : Type) where
  result : Except (Option E) V
  invocations : Nat
  waits : List Nat
deriving Repr

def withRetryGo {E V : Type} (op : Nat → Except E V) (baseDelay : Nat) :
    Nat → Nat → RetryResult E V
  | _, 0 => ⟨Except.error none, 0, []⟩
  | attempt, rem + 1 =>
    match op attempt with
    | .ok v => ⟨Except.ok v, 1, []⟩
    | .error e =>
      if rem = 0 then ⟨Except.error (some e), 1, []⟩
      else
        let r := withRetryGo op baseDelay (attempt + 1) rem
        ⟨r.result, r.invocations + 1, baseDelay * 2 ^ (attempt - 1) :: r.waits⟩

/-- The `RetryHandler.withRetry(operation, maxRetries, delay)`. -/
def withRetry {E V : Type} (op : Nat → Except E V) (maxRetries baseDelay : Nat) :
    RetryResult E V :=
  withRetryGo op baseDelay 1 maxRetries

/-! Section: Security sanitizer (`SecurityManager`)

The regex replacement passes are modelled exactly as JS global replace:
one left-to-right scan deleting non-overlapping matches, resuming after
each match.  Case-insensitivity is ASCII case folding, which coincides with
the `i` flag on the ASCII-only patterns of the source. -/

def isWordChar (c : Char) : Bool :=
  decide ('a' ≤ c ∧ c ≤ 'z') || decide ('A' ≤ c ∧ c ≤ 'Z')
    || decide ('0' ≤ c ∧ c ≤ '9') || c == '_'

/-- One global-replace pass deleting occurrences of the (lowercase) literal
`pat`, case-insensitively: JS `str.replace(/pat/gi, '')`.  Structural fuel;
every step consumes at least one character, so `fuel ≥ s.length` suffices
and the fuel-exhausted fallback is unreachable then. -/
def removeAllCIGo (pat : Str) : Nat → Str → Str
  | _, [] => []
  | 0, s => s
  | fuel + 1, c :: rest =>
    if hasPfxCI pat (c :: rest) then removeAllCIGo pat fuel (rest.drop (pat.length - 1))
    else c :: removeAllCIGo pat fuel rest

def removeAllCI (pat : Str) (s : Str) : Str := removeAllCIGo pat s.length s

/-- Length of the `/on\w+=/i` match starting at the head of `s`, if any:
`on` (case-insensitive), a maximal nonempty run of word characters, then
`=` directly (`=` is not a word character, so the greedy run cannot
backtrack into a different match at this position). -/
def onEqMatchLen (s : Str) : Option Nat :=
  match s with
  | c1 :: c2 :: rest =>
    if lowerChar c1 == 'o' && lowerChar c2 == 'n' then
      let run := rest.takeWhile isWordChar
      if decide (0 < run.length) && ((rest.drop run.length).head? == some '=') then
        some (2 + run.length + 1)
      else none
    else none
  | _ => none

/-- The `str.replace(/on\w+=/gi, '')` pass (structural fuel, as above). -/
def removeOnEqGo : Nat → Str → Str
  | _, [] => []
  | 0, s => s
  | fuel + 1, c :: rest =>
    match onEqMatchLen (c :: rest) with
    | some len => removeOnEqGo fuel (rest.drop (len - 1))
    | none => c :: removeOnEqGo fuel rest

def removeOnEq (s : Str) : Str := removeOnEqGo s.length s

/-- The `SecurityManager.sanitizeInput` on a string: remove `<`/`>`, then one
pass each removing `javascript:`, `on\w+=` and `data:` (case-insensitive),
then trim. -/
def sanitizeString (s : Str) : Str :=
  jsTrim (removeAllCI "data:".data
    (removeOnEq (removeAllCI "javascript:".data
      (s.filter (fun c => !(c == '<' || c == '>'))))))

/-- The `sanitizeInput` of the TypeScript variant (security.ts): non-string
input is returned as its `String(...)` form, with no stripping or trimming
applied to it. -/
def sanitizeInputTS (v : JSValue) : Str :=
  match v with
  | .str s => sanitizeString s
  | v => jsToString v

/-- The `sanitizeInput` of the JavaScript variant (security.js): non-string
input is returned unchanged. -/
def sanitizeInputJS (v : JSValue) : JSValue :=
  match v with
  | .str s => .str (sanitizeString s)
  | v => v

/-- The `/on\w+\s*=/i` match at the head of `s`: `on`, a maximal nonempty
word-character run, maximal whitespace, then `=`. -/
def onSpacedEqHere (s : Str) : Bool :=
  match s with
  | c1 :: c2 :: rest =>
    lowerChar c1 == 'o' && lowerChar c2 == 'n' &&
      (let run := rest.takeWhile isWordChar
       decide (0 < run.length) &&
         (((rest.drop run.length).dropWhile isJsSpace).head? == some '='))
  | _ => false

/-- The `/name\s*\(/i` test: the (lowercase) name, optional whitespace, `(`. -/
def callPatternCI (name : Str) (s : Str) : Bool :=
  s.tails.any (fun t => hasPfxCI name t &&
    (((t.drop name.length).dropWhile isJsSpace).head? == some '('))

/-- The `/<tag[\s\S]*?>/i` test: the literal `<tag` followed by a later `>`. -/
def openTagCI (tag : Str) (s : Str) : Bool :=
  s.tails.any (fun t => hasPfxCI tag t && (t.drop tag.length).contains '>')

/-- The `/<script[\s\S]*?>[\s\S]*?<\/script>/i` test: `<script`, then a later
`>`, then a later `</script>`. -/
def scriptTagPair (s : Str) : Bool :=
  s.tails.any (fun t => hasPfxCI "<script".data t &&
    ((t.drop 7).tails.any (fun u => u.head? == some '>' &&
       containsCI "</script>".data (u.drop 1))))

/-- The `SecurityManager.containsMaliciousContent` on a string. -/
def containsMaliciousStr (s : Str) : Bool :=
  scriptTagPair s
  || containsCI "javascript:".data s
  || s.tails.any onSpacedEqHere
  || openTagCI "<iframe".data s
  || openTagCI "<object".data s
  || openTagCI "<embed".data s
  || openTagCI "<form".data s
  || callPatternCI "eval".data s
  || callPatternCI "function".data s
  || callPatternCI "settimeout".data s
  || callPatternCI "setinterval".data s

/-- The `SecurityManager.containsMaliciousContent`: non-strings are safe. -/
def containsMaliciousContent (v : JSValue) : Bool :=
  match v with
  | .str s => containsMaliciousStr s
  | _ => false

/-! Section: Entry validator (`Validator`, `FormValidator`, `setupFormValidation`)

Numeric strings are modelled on the integer-literal fragment (optional sign
and decimal digits); this is the only numeric-string form the pipeline
produces.  `new Date(value)` is modelled on date-only ISO `YYYY-MM-DD`
strings with calendar validation, the fragment the application exercises. -/

def decDigitsGo : Str → Nat → Option Nat
  | [], acc => some acc
  | c :: r, acc => if c.isDigit then decDigitsGo r (acc * 10 + (c.toNat - 48)) else none

/-- A nonempty all-digit string to its value. -/
def decDigits (s : Str) : Option Nat :=
  if s.isEmpty then none else decDigitsGo s 0

/-- Integer-literal parse: optional sign, then digits. -/
def parseIntLit (s : Str) : Option Int :=
  match s with
  | [] => none
  | c :: r =>
    if c = '-' then (decDigits r).map (fun n => -(n : Int))
    else if c = '+' then (decDigits r).map (fun n => (n : Int))
    else (decDigits (c :: r)).map (fun n => (n : Int))

/-- The `Number(s)` on the modelled fragment: trimmed; empty coerces to 0;
otherwise an integer literal (`none` = NaN). -/
def jsNumber (s : Str) : Option Int :=
  let t := jsTrim s
  if t.isEmpty then some 0 else parseIntLit t

def isLeapYear (y : Nat) : Bool :=
  (y % 4 == 0 && y % 100 != 0) || y % 400 == 0

def daysInMonth (y m : Nat) : Nat :=
  if m == 2 then (if isLeapYear y then 29 else 28)
  else if m == 4 || m == 6 || m == 9 || m == 11 then 30
  else 31

/-- Calendar validity of a date-only ISO `YYYY-MM-DD` string. -/
def isoDateValid (s : Str) : Bool :=
  match s with
  | [y1, y2, y3, y4, '-', m1, m2, '-', d1, d2] =>
    [y1, y2, y3, y4, m1, m2, d1, d2].all Char.isDigit &&
      (let y := (y1.toNat - 48) * 1000 + (y2.toNat - 48) * 100
                  + (y3.toNat - 48) * 10 + (y4.toNat - 48)
       let m := (m1.toNat - 48) * 10 + (m2.toNat - 48)
       let d := (d1.toNat - 48) * 10 + (d2.toNat - 48)
       decide (1 ≤ m ∧ m ≤ 12 ∧ 1 ≤ d ∧ d ≤ daysInMonth y m))
  | _ => false

/-- The `Validator.isRequired`: not null, not undefined, not `''` (a number is
never strictly equal to `''`). -/
def isRequired : JSValue → Bool
  | .null => false
  | .undef => false
  | .str s => !s.isEmpty
  | .num _ => true

/-- The `Validator.isNumber`: `!isNaN(value) && !isNaN(parseFloat(value))` on
the modelled fragment. -/
def isNumberV : JSValue → Bool
  | .num _ => true
  | .str s => !(jsTrim s).isEmpty && (parseIntLit (jsTrim s)).isSome
  | _ => false

/-- The `Validator.isDate`: `new Date(value)` produces a valid date.
`new Date(null)` is the epoch (valid); `new Date(undefined)` is invalid. -/
def isDateV : JSValue → Bool
  | .str s => isoDateValid s
  | .num _ => true
  | .null => true
  | .undef => false

/-- The `Validator.maxLength`: a string of at most `max` characters. -/
def maxLengthV (v : JSValue) (max : Nat) : Bool :=
  match v with
  | .str s => decide (s.length ≤ max)
  | _ => false

/-- The `translations.en.domains` assessment catalog: key ↦ advisory
`scoreRange` string (translations.js). -/
def enDomains : List (Str × Str) :=
  [("phq-9".data, "0-27".data), ("gad-7".data, "0-21".data),
   ("aaq-ii".data, "7-49".data), ("oci-r".data, "0-72".data),
   ("rosenberg".data, "0-30".data), ("maslach".data, "Varies by subscale".data),
   ("procrastination".data, "12-60".data)]

/-- Key membership in the catalog (`hasOwnProperty` / truthy lookup agree:
every domain entry is an object, hence truthy). -/
def hasDomain (k : Str) : Bool :=
  (enDomains.find? (fun p => p.1 == k)).isSome

/-- A record as passed to `FormValidator.validate` for a log entry. -/
structure JSRecord where
  id : JSValue
  date : JSValue
  domainKey : JSValue
  score : JSValue
  note : JSValue
deriving DecidableEq, Repr

def idErrors (v : JSValue) : List String :=
  if isRequired v then [] else ["Entry ID is required"]

def dateErrors (v : JSValue) : List String :=
  (if isRequired v then [] else ["Date is required"])
    ++ (if isDateV v then [] else ["Please enter a valid date"])

def domainKeyErrors (v : JSValue) : List String :=
  (if isRequired v then [] else ["Assessment type is required"])
    ++ (if hasDomain (jsToString v) then [] else ["Invalid assessment type"])

def scoreErrors (v : JSValue) : List String :=
  (if isRequired v then [] else ["Score is required"])
    ++ (if isNumberV v then [] else ["Score must be a number"])

/-- The note's custom rule: `if (!value) return true;` then the malicious
content screen. -/
def noteSafe (v : JSValue) : Bool :=
  if jsTruthy v then !(containsMaliciousContent v) else true

def noteErrors (v : JSValue) : List String :=
  (if maxLengthV v 1000 then [] else ["Note must not exceed 1000 characters"])
    ++ (if noteSafe v then [] else ["Note contains potentially unsafe content"])

structure ValidationResult where
  isValid : Bool
  errors : List (String × List String)
deriving DecidableEq, Repr

/-- Per-field failure messages, in rule-registration order
(`setupFormValidation`). -/
def fieldChecks (r : JSRecord) : List (String × List String) :=
  [("id", idErrors r.id), ("date", dateErrors r.date),
   ("domainKey", domainKeyErrors r.domainKey), ("score", scoreErrors r.score),
   ("note", noteErrors r.note)]

/-- The `FormValidator.validate` with the rules registered by
`setupFormValidation`: a field with no failing rules contributes no entry to
the errors map. -/
def validate (r : JSRecord) : ValidationResult :=
  { isValid := (fieldChecks r).all (fun f => f.2.isEmpty),
    errors := (fieldChecks r).filter (fun f => !f.2.isEmpty) }

/-! Section: Entry model and CSV codec -/

structure Entry where
  id : Str
  date : Str
  domainKey : Str
  score : Int
  note : Str
deriving DecidableEq, Repr

def Entry.toRecord (e : Entry) : JSRecord :=
  ⟨.str e.id, .str e.date, .str e.domainKey, .num e.score, .str e.note⟩

def validEntry (e : Entry) : Bool :=
  (validate e.toRecord).isValid

/-- The `sanitizeCSVValue`: `''` for null/undefined, else stringify, replace
CR/LF/TAB by spaces, trim. -/
def sanitizeCSVValue (v : JSValue) : Str :=
  match v with
  | .null => []
  | .undef => []
  | v => jsTrim ((jsToString v).map
      (fun c => if c == '\r' || c == '\n' || c == '\t' then ' ' else c))

def doubleQuotes : Str → Str
  | [] => []
  | c :: r => if c = '"' then '"' :: '"' :: doubleQuotes r else c :: doubleQuotes r

/-- The `escapeCSV`: wrap in double quotes, doubling embedded quotes. -/
def escapeCSV (s : Str) : Str :=
  '"' :: (doubleQuotes s ++ ['"'])

def csvHeader : Str := "id,date,domainKey,score,note".data

/-- One exported data row. -/
def entryRow (e : Entry) : Str :=
  joinWith ',' [sanitizeCSVValue (.str e.id), sanitizeCSVValue (.str e.date),
    sanitizeCSVValue (.str e.domainKey), sanitizeCSVValue (.num e.score),
    escapeCSV e.note]

/-- The `exportToCSV`: refuses an empty collection (`none`), otherwise emits the
BOM, the header row and one row per entry passing validation. -/
def exportToCSV (entries : List Entry) : Option Str :=
  if entries.isEmpty then none
  else some ('\uFEFF' :: joinWith '\n' (csvHeader :: (entries.filter validEntry).map entryRow))

/-- The `parseCSVRow`: split on every comma, trim the first four parts, rejoin
the rest as the note.  A missing part is `undefined` in JS and is modelled
as `''`: both are falsy and neither is ever stored, so the two are
observationally equal downstream. -/
def parseCSVRow (row : Str) : Str × Str × Str × Str × Str :=
  let parts := splitOnChar ',' row
  (jsTrim (parts.getD 0 []), jsTrim (parts.getD 1 []), jsTrim (parts.getD 2 []),
   jsTrim (parts.getD 3 []), jsTrim (joinWith ',' (parts.drop 4)))

/-- The `isValidImportRow`: the first four fields truthy, the domain known, the
score numeric.  (The source's `note !== undefined` conjunct is always true:
the rejoined note is always a string.) -/
def isValidImportRow (id date domainKey score : Str) : Bool :=
  !id.isEmpty && !date.isEmpty && !domainKey.isEmpty && !score.isEmpty
    && hasDomain domainKey && (jsNumber score).isSome

/-- The `note.replace(/^"|"$/g, '')`: remove one leading and one trailing
quote (a single-character `"` string becomes empty). -/
def stripQuotesEnds (s : Str) : Str :=
  if s = ['"'] then []
  else
    let a := if s.head? = some '"' then s.drop 1 else s
    if a.getLast? = some '"' then a.dropLast else a

/-- The `note.replace(/""/g, '"')`: left-to-right non-overlapping undoubling. -/
def unescapeQuotes : Str → Str
  | [] => []
  | [c] => [c]
  | c1 :: c2 :: r =>
    if c1 = '"' ∧ c2 = '"' then '"' :: unescapeQuotes r
    else c1 :: unescapeQuotes (c2 :: r)

/-- The stored note of an imported row: `''` when falsy, else unquoted and
unescaped. -/
def importNote (note : Str) : Str :=
  if note.isEmpty then [] else unescapeQuotes (stripQuotesEnds note)

structure ImportResult where
  entries : List Entry
  importedCount : Nat
  skippedCount : Nat
deriving DecidableEq, Repr

/-- Processing of one CSV line inside `importFromCSV`: blank lines are
passed over silently; a parsed row is deduplicated by id, validated as a
complete entry, and then appended or counted as skipped. -/
def importRow (st : ImportResult) (row : Str) : ImportResult :=
  if (jsTrim row).isEmpty then st
  else
    let (id, date, domainKey, score, note) := parseCSVRow row
    if isValidImportRow id date domainKey score then
      if st.entries.any (fun e => e.id == id) then
        { st with skippedCount := st.skippedCount + 1 }
      else
        let newEntry : Entry := ⟨id, date, domainKey, (jsNumber score).getD 0, importNote note⟩
        if validEntry newEntry then
          { st with entries := st.entries ++ [newEntry],
                    importedCount := st.importedCount + 1 }
        else { st with skippedCount := st.skippedCount + 1 }
    else { st with skippedCount := st.skippedCount + 1 }

def maxImportRows : Nat := 10000

/-- The text-processing core of `importFromCSV`: drop the header line, fold
the first `maxImportRows` remaining lines into the collection. -/
def importFromCSV (entries : List Entry) (text : Str) : ImportResult :=
  if (jsTrim text).isEmpty then ⟨entries, 0, 0⟩
  else (((splitOnChar '\n' text).drop 1).take maxImportRows).foldl importRow ⟨entries, 0, 0⟩

/-! Section: Entry management (`addEntry`, `deleteEntry`, `validateScoreRange`) -/

/-- The Persian-digit normalization inside `validateScoreRange`. -/
def normalizePersianDigit (c : Char) : Char :=
  if 0x6F0 ≤ c.toNat ∧ c.toNat ≤ 0x6F9 then Char.ofNat (48 + (c.toNat - 0x6F0)) else c

/-- The `parseInt` on the fragment used for score ranges: leading whitespace,
optional sign, then leading digits (`none` = NaN). -/
def parseIntJs (s : Str) : Option Int :=
  let go : Str → Option Nat := fun r =>
    let ds := r.takeWhile Char.isDigit
    if ds.isEmpty then none else decDigitsGo ds 0
  match s.dropWhile isJsSpace with
  | '-' :: r => (go r).map (fun n => -(n : Int))
  | '+' :: r => (go r).map (fun n => (n : Int))
  | r => (go r).map (fun n => (n : Int))

/-- The `validateScoreRange`: permissive unless the range splits as `min-max`
with both ends parseable. -/
def validateScoreRange (score : Int) (range : Str) : Bool :=
  let normalized := range.map normalizePersianDigit
  match splitOnChar '-' normalized with
  | [a, b] =>
    match parseIntJs a, parseIntJs b with
    | some mn, some mx => decide (mn ≤ score ∧ score ≤ mx)
    | _, _ => true
  | _ => true

/-- The `addEntry` (English catalog): validation, then the domain score-range
check, then an unconditional push — there is no duplicate-id check. -/
def addEntry (entries : List Entry) (e : Entry) : List Entry × Bool :=
  if !(validEntry e) then (entries, false)
  else
    match enDomains.find? (fun p => p.1 == e.domainKey) with
    | some p =>
      if !(validateScoreRange e.score p.2) then (entries, false)
      else (entries ++ [e], true)
    | none => (entries ++ [e], true)

/-- The `deleteEntry`: an empty id throws (caught, `false`); otherwise filter by
id and report whether anything was removed. -/
def deleteEntry (entries : List Entry) (id : Str) : List Entry × Bool :=
  if id.isEmpty then (entries, false)
  else
    let filtered := entries.filter (fun e => !(e.id == id))
    (filtered, decide (filtered.length < entries.length))

/-- A field value that survives the CSV encode/decode unchanged: non-empty,
already trimmed, and free of comma, LF, CR and TAB. -/
def csvCleanField (s : Str) : Bool :=
  !s.isEmpty && (jsTrim s == s)
    && s.all (fun c => !(c == ',' || c == '\n' || c == '\r' || c == '\t'))

/-- An entry whose exported row parses back to exactly the same entry:
valid, clean id/date/domainKey fields, and a note without LF. -/
def csvRoundSafe (e : Entry) : Bool :=
  validEntry e && csvCleanField e.id && csvCleanField e.date
    && csvCleanField e.domainKey && e.note.all (fun c => !(c == '\n'))

/-! Section: String lemmas -/

theorem mem_removeAllCIGo (pat : Str) :
    ∀ (fuel : Nat) (s : Str) (c : Char), c ∈ removeAllCIGo pat fuel s → c ∈ s := by
  intro fuel
  induction fuel with
  | zero =>
    intro s c h
    cases s with
    | nil => simpa [removeAllCIGo] using h
    | cons x r => simpa [removeAllCIGo] using h
  | succ f ih =>
    intro s c h
    cases s with
    | nil => simpa [removeAllCIGo] using h
    | cons x r =>
      simp only [removeAllCIGo] at h
      split at h
      · exact List.mem_cons_of_mem x (List.mem_of_mem_drop (ih _ c h))
      · rcases List.mem_cons.mp h with rfl | h'
        · exact List.mem_cons_self _ _
        · exact List.mem_cons_of_mem x (ih _ c h')

theorem mem_removeOnEqGo :
    ∀ (fuel : Nat) (s : Str) (c : Char), c ∈ removeOnEqGo fuel s → c ∈ s := by
  intro fuel
  induction fuel with
  | zero =>
    intro s c h
    cases s with
    | nil => simpa [removeOnEqGo] using h
    | cons x r => simpa [removeOnEqGo] using h
  | succ f ih =>
    intro s c h
    cases s with
    | nil => simpa [removeOnEqGo] using h
    | cons x r =>
      simp only [removeOnEqGo] at h
      split at h
      · exact List.mem_cons_of_mem x (List.mem_of_mem_drop (ih _ c h))
      · rcases List.mem_cons.mp h with rfl | h'
        · exact List.mem_cons_self _ _
        · exact List.mem_cons_of_mem x (ih _ c h')

theorem mem_jsTrim (s : Str) (c : Char) (h : c ∈ jsTrim s) : c ∈ s := by
  simp only [jsTrim, List.mem_reverse] at h
  have h1 : c ∈ (s.dropWhile isJsSpace).reverse := (List.dropWhile_sublist _).subset h
  rw [List.mem_reverse] at h1
  exact (List.dropWhile_sublist _).subset h1

theorem dropWhile_head_false (p : Char → Bool) :
    ∀ (s : Str) (c : Char), (s.dropWhile p).head? = some c → p c = false := by
  intro s
  induction s with
  | nil => intro c h; simp [List.dropWhile] at h
  | cons x r ih =>
    intro c h
    rw [List.dropWhile_cons] at h
    by_cases hx : p x = true
    · rw [if_pos hx] at h
      exact ih c h
    · rw [if_neg hx] at h
      simp only [List.head?_cons, Option.some.injEq] at h
      subst h
      exact Bool.eq_false_iff.mpr hx

theorem dropWhile_of_head_false (p : Char → Bool) (s : Str)
    (h : ∀ c, s.head? = some c → p c = false) : s.dropWhile p = s := by
  cases s with
  | nil => rfl
  | cons x r =>
    rw [List.dropWhile_cons, if_neg]
    simp [h x rfl]

theorem dropWhile_idem (p : Char → Bool) (s : Str) :
    (s.dropWhile p).dropWhile p = s.dropWhile p := by
  induction s with
  | nil => rfl
  | cons x r ih =>
    rw [List.dropWhile_cons]
    by_cases hx : p x = true
    · rw [if_pos hx]; exact ih
    · rw [if_neg hx, List.dropWhile_cons, if_neg hx]

theorem getLast?_dropWhile (p : Char → Bool) :
    ∀ (s : Str), s.dropWhile p ≠ [] → (s.dropWhile p).getLast? = s.getLast? := by
  intro s
  induction s with
  | nil => intro h; exact absurd rfl h
  | cons x r ih =>
    intro h
    rw [List.dropWhile_cons] at h ⊢
    by_cases hx : p x = true
    · rw [if_pos hx] at h ⊢
      have hr : r ≠ [] := by
        intro he; subst he; simp [List.dropWhile] at h
      obtain ⟨y, hy⟩ := Option.isSome_iff_exists.mp (List.getLast?_isSome.mpr hr)
      rw [ih h, List.getLast?_cons, hy]
      simp
    · rw [if_neg hx] at h ⊢

/-- The `trim` is idempotent; a trimmed string is its own trim. -/
theorem jsTrim_idem (s : Str) : jsTrim (jsTrim s) = jsTrim s := by
  by_cases hvn : (s.dropWhile isJsSpace).reverse.dropWhile isJsSpace = []
  · simp [jsTrim, hvn]
  · have hA : ((s.dropWhile isJsSpace).reverse.dropWhile isJsSpace).reverse.dropWhile isJsSpace
        = ((s.dropWhile isJsSpace).reverse.dropWhile isJsSpace).reverse := by
      apply dropWhile_of_head_false
      intro c hc
      rw [List.head?_reverse, getLast?_dropWhile isJsSpace _ hvn,
        List.getLast?_reverse] at hc
      exact dropWhile_head_false isJsSpace s c hc
    simp only [jsTrim]
    rw [hA, List.reverse_reverse, dropWhile_idem]

theorem jsTrim_ne_nil_of_head (c : Char) (r : Str) (hc : isJsSpace c = false) :
    jsTrim (c :: r) ≠ [] := by
  intro h
  have h1 : (c :: r).dropWhile isJsSpace = c :: r := by
    rw [List.dropWhile_cons, if_neg (by simp [hc])]
  rw [jsTrim, h1] at h
  have h2 : (c :: r).reverse.dropWhile isJsSpace = [] := by
    have h2a := congrArg List.reverse h
    simpa using h2a
  have h3 := List.dropWhile_eq_nil_iff.mp h2
  have h4 := h3 c (by simp)
  rw [hc] at h4
  exact Bool.false_ne_true h4

/-! Section: Theorems about the storage adapter, rate limiter and retry helper -/

theorem evictOld_sublist (w now : Nat) : ∀ l : List Nat, List.Sublist (evictOld w now l) l
  | [] => List.Sublist.refl _
  | c :: rest => by
    simp only [evictOld]
    split
    · exact List.Sublist.cons c (evictOld_sublist w now rest)
    · exact List.Sublist.refl _

/-- Head-of-window invocations never evict and always execute: folding the
wrapper over further call times that all lie within the window of the oldest
recorded call `t`, while capacity is not yet reached, records each call and
invokes the wrapped operation every time. -/
theorem rlRun_aux (m w t : Nat) :
    ∀ (todo done : List Nat) (accs : List Bool),
      (t :: done).length + todo.length ≤ m →
      (∀ x ∈ todo, x ≤ t + w) →
      todo.foldl (rlStep m w) (t :: done, accs)
        = (t :: (done ++ todo), accs ++ List.replicate todo.length true) := by
  intro todo
  induction todo with
  | nil => intro done accs _ _; simp
  | cons u todo ih =>
    intro done accs hlen hwin
    have hu : u ≤ t + w := hwin u (by simp)
    have hev : evictOld w u (t :: done) = t :: done := by
      simp only [evictOld, if_neg (by omega : ¬ t + w < u)]
    have hstep : rlStep m w (t :: done, accs) u = (t :: (done ++ [u]), accs ++ [true]) := by
      simp only [rlStep, rateLimiterCall, hev]
      rw [if_neg (by
        simp only [List.length_cons, List.length_append] at hlen ⊢
        omega)]
      simp
    rw [List.foldl_cons, hstep,
      ih (done ++ [u]) (accs ++ [true])
        (by simp only [List.length_cons, List.length_append] at hlen ⊢; simp at hlen ⊢; omega)
        (fun x hx => hwin x (by simp [hx]))]
    simp [List.replicate_succ]

/-- Claim C7: a limiter created with `createRateLimiter(N, windowMs)` lets `N`
invocations within one window (the window of the first call) all execute the
wrapped operation, rejects a further invocation inside that window with the
rate-limit failure and without executing the operation, and, once more than
the window has elapsed since the earliest recorded call, permits an
invocation again and executes the operation. -/
theorem C7_theorem (m w t : Nat) (rest : List Nat) (u v : Nat)
    (hlen : (t :: rest).length = m)
    (hwin : ∀ x ∈ t :: rest, x ≤ t + w)
    (hu : u ≤ t + w)
    (hv : t + w < v) :
    (rlRun m w [] (t :: rest)).2 = List.replicate m true
    ∧ (rlRun m w [] (t :: rest)).1 = t :: rest
    ∧ (rateLimiterCall m w () (t :: rest) u).invoked = false
    ∧ (rateLimiterCall m w () (t :: rest) u).result = Except.error "Rate limit exceeded"
    ∧ (rateLimiterCall m w () (t :: rest) v).invoked = true := by
  have hm : 1 ≤ m := by simp only [List.length_cons] at hlen; omega
  have hstep0 : rlStep m w ([], []) t = ([t], [true]) := by
    simp only [rlStep, rateLimiterCall, evictOld]
    rw [if_neg (by simp only [List.length_nil]; omega)]
    simp
  have hrun : rlRun m w [] (t :: rest) = (t :: rest, List.replicate m true) := by
    rw [rlRun, List.foldl_cons, hstep0,
      rlRun_aux m w t rest [] [true]
        (by simp only [List.length_cons, List.length_nil] at hlen ⊢; omega)
        (fun x hx => hwin x (by simp [hx]))]
    have hm' : m = rest.length + 1 := by simp only [List.length_cons] at hlen; omega
    subst hm'
    simp [List.replicate_succ]
  have hev_u : evictOld w u (t :: rest) = t :: rest := by
    simp only [evictOld, if_neg (by omega : ¬ t + w < u)]
  have hreject : rateLimiterCall m w () (t :: rest) u
      = { result := Except.error "Rate limit exceeded", calls := t :: rest,
          invoked := false } := by
    simp only [rateLimiterCall, hev_u]
    rw [if_pos (le_of_eq hlen.symm)]
  refine ⟨by rw [hrun], by rw [hrun], by rw [hreject], by rw [hreject], ?_⟩
  have hev_v : evictOld w v (t :: rest) = evictOld w v rest := by
    simp only [evictOld, if_pos hv]
  simp only [rateLimiterCall, hev_v]
  rw [if_neg]
  have := (evictOld_sublist w v rest).length_le
  simp only [List.length_cons] at hlen
  omega

/-- Claim C7 witness: with `N = 2`, `window = 10`, calls at times 0 and 5 both
execute, a third call at time 10 is rejected, and a call at time 11 (more
than the window after the earliest recorded call) executes again. -/
theorem C7_witness :
    (rlRun 2 10 [] [0, 5]).2 = List.replicate 2 true
    ∧ (rateLimiterCall 2 10 () [0, 5] 10).invoked = false
    ∧ (rateLimiterCall 2 10 () [0, 5] 10).result = Except.error "Rate limit exceeded"
    ∧ (rateLimiterCall 2 10 () [0, 5] 11).invoked = true := by
  have h := C7_theorem 2 10 0 [5] 10 11 (by decide)
    (by intro x hx; fin_cases hx <;> decide) (by decide) (by decide)
  exact ⟨h.1, h.2.2.1, h.2.2.2.1, h.2.2.2.2⟩

/-- Claim C10: when the wrapper raises the rate-limit failure, the rejected
call records no timestamp (the state is exactly the window-evicted input
list, a sublist of the previous state) and the wrapped operation is not
invoked. -/
theorem C10_theorem {α : Type} (maxCalls w : Nat) (fnVal : α) (calls : List Nat)
    (now : Nat) (e : String)
    (h : (rateLimiterCall maxCalls w fnVal calls now).result = Except.error e) :
    (rateLimiterCall maxCalls w fnVal calls now).invoked = false
    ∧ (rateLimiterCall maxCalls w fnVal calls now).calls = evictOld w now calls
    ∧ List.Sublist (rateLimiterCall maxCalls w fnVal calls now).calls calls := by
  by_cases hc : maxCalls ≤ (evictOld w now calls).length
  · have hdef : rateLimiterCall maxCalls w fnVal calls now
        = { result := Except.error "Rate limit exceeded",
            calls := evictOld w now calls, invoked := false } := by
      simp only [rateLimiterCall, if_pos hc]
    rw [hdef]
    exact ⟨rfl, rfl, evictOld_sublist w now calls⟩
  · exfalso
    simp only [rateLimiterCall, if_neg hc] at h
    exact Except.noConfusion h

/-- Claim C10 witness: a limiter at capacity (1 call per 10ms window, one
recorded call at time 5) rejects a call at time 6 without invoking the
operation and without recording a timestamp. -/
theorem C10_witness :
    (rateLimiterCall 1 10 (0 : Nat) [5] 6).result = Except.error "Rate limit exceeded"
    ∧ (rateLimiterCall 1 10 (0 : Nat) [5] 6).invoked = false
    ∧ (rateLimiterCall 1 10 (0 : Nat) [5] 6).calls = evictOld 10 6 [5] := by
  have h := C10_theorem 1 10 (0 : Nat) [5] 6 "Rate limit exceeded" (by rfl)
  exact ⟨by rfl, h.1, h.2.1⟩

/-- Claim C1 (counterexample): on an adapter whose availability probe failed,
`setItem` raises `'Storage not available'` rather than degrading to a no-op,
so it is false that no call on an unavailable adapter lets an exception
escape to the caller. -/
theorem C1_counterexample :
    SecureStorage.setItem ⟨"quickmh_".data, false⟩ [] "k".data "v".data
      = Except.error "Storage not available" := by
  rfl

/-- Claim C1 (amended): on an adapter whose availability probe failed,
`getItem` returns null, `removeItem` and `clear` return `false` and leave the
store untouched, but `setItem` raises `'Storage not available'` instead of
degrading. -/
theorem C1_amended (pfx : Str) (st : Store) (k v : Str) :
    SecureStorage.getItem ⟨pfx, false⟩ st k = none
    ∧ SecureStorage.removeItem ⟨pfx, false⟩ st k = (st, false)
    ∧ SecureStorage.clear ⟨pfx, false⟩ st = (st, false)
    ∧ SecureStorage.setItem ⟨pfx, false⟩ st k v = Except.error "Storage not available" :=
  ⟨rfl, rfl, rfl, rfl⟩

/-- Always-failing operation: `withRetryGo` performs exactly `rem` attempts,
re-throws the last failure, and waits `d * 2^(attempt-1)` between consecutive
attempts. -/
theorem withRetryGo_allFail {E V : Type} (err : Nat → E) (d : Nat) :
    ∀ (rem attempt : Nat), 1 ≤ rem → 1 ≤ attempt →
      withRetryGo (E := E) (V := V) (fun k => Except.error (err k)) d attempt rem
        = ⟨Except.error (some (err (attempt + rem - 1))), rem,
           (List.range (rem - 1)).map (fun k => d * 2 ^ (attempt - 1 + k))⟩ := by
  intro rem
  induction rem with
  | zero => omega
  | succ r ih =>
    intro attempt _ hatt
    by_cases hr : r = 0
    · subst hr
      simp [withRetryGo]
    · have h1 : 1 ≤ r := by omega
      have hmain := ih (attempt + 1) h1 (by omega)
      simp only [withRetryGo, if_neg hr, hmain]
      have hrange : List.range (r + 1 - 1) = 0 :: (List.range (r - 1)).map Nat.succ := by
        have he : r + 1 - 1 = (r - 1) + 1 := by omega
        rw [he, List.range_succ_eq_map]
      have h2 : attempt + 1 + r - 1 = attempt + (r + 1) - 1 := by omega
      have h3 : (List.range (r + 1 - 1)).map (fun k => d * 2 ^ (attempt - 1 + k))
          = d * 2 ^ (attempt - 1)
            :: (List.range (r - 1)).map (fun k => d * 2 ^ (attempt + 1 - 1 + k)) := by
        rw [hrange]
        simp only [List.map_cons, List.map_map]
        refine congrArg₂ List.cons (by rw [Nat.add_zero]) ?_
        apply List.map_congr_left
        intro k _
        simp only [Function.comp_apply]
        have he2 : attempt - 1 + Nat.succ k = attempt + 1 - 1 + k := by omega
        rw [he2]
      rw [h2, h3]

/-- Operation succeeding first at attempt `k`: `withRetryGo` returns that
attempt's value after exactly `k - attempt + 1` invocations. -/
theorem withRetryGo_succeed {E V : Type} (op : Nat → Except E V) (d : Nat) :
    ∀ (rem attempt k : Nat) (v : V), attempt ≤ k → k ≤ attempt + rem - 1 → 1 ≤ rem →
      op k = Except.ok v → (∀ j, attempt ≤ j → j < k → ∃ e, op j = Except.error e) →
      (withRetryGo op d attempt rem).result = Except.ok v
      ∧ (withRetryGo op d attempt rem).invocations = k - attempt + 1 := by
  intro rem
  induction rem with
  | zero => omega
  | succ r ih =>
    intro attempt k v hak hka _ hok hfail
    by_cases hek : attempt = k
    · subst hek
      simp [withRetryGo, hok]
    · have hlt : attempt < k := by omega
      obtain ⟨e, he⟩ := hfail attempt (le_refl _) hlt
      have hr : r ≠ 0 := by omega
      simp only [withRetryGo, he, if_neg hr]
      have := ih (attempt + 1) k v (by omega) (by omega) (by omega) hok
        (fun j hj1 hj2 => hfail j (by omega) hj2)
      refine ⟨this.1, ?_⟩
      simp only [this.2]
      omega

/-- Claim C8: over an operation failing at every attempt, `withRetry` invokes
it exactly `maxRetries` times, waits `baseDelay * 2^(attempt-1)` between
consecutive attempts, and re-throws the last failure unchanged; over an
operation first succeeding at attempt `k ≤ maxRetries`, it returns that
attempt's result after exactly `k` invocations. -/
theorem C8_theorem (E V : Type) (maxRetries d : Nat) (h : 1 ≤ maxRetries) :
    (∀ err : Nat → E,
       withRetry (V := V) (fun k => Except.error (err k)) maxRetries d
         = ⟨Except.error (some (err maxRetries)), maxRetries,
            (List.range (maxRetries - 1)).map (fun k => d * 2 ^ k)⟩)
    ∧ (∀ (op : Nat → Except E V) (k : Nat) (v : V),
         1 ≤ k → k ≤ maxRetries → op k = Except.ok v →
         (∀ j, 1 ≤ j → j < k → ∃ e, op j = Except.error e) →
         (withRetry op maxRetries d).result = Except.ok v
         ∧ (withRetry op maxRetries d).invocations = k) := by
  constructor
  · intro err
    rw [withRetry, withRetryGo_allFail err d maxRetries 1 h (le_refl _)]
    simp
  · intro op k v hk1 hk2 hok hfail
    have := withRetryGo_succeed op d maxRetries 1 k v hk1 (by omega) h hok
      (fun j hj1 hj2 => hfail j hj1 hj2)
    exact ⟨this.1, by rw [withRetry, this.2]; omega⟩

/-- Claim C8 witness: with `maxRetries = 3` and `baseDelay = 100`, an
always-failing operation is invoked 3 times with waits 100 and 200 and the
final failure is re-thrown; an operation first succeeding at attempt 2
returns that result after 2 invocations. -/
theorem C8_witness :
    (withRetry (fun k => (Except.error k : Except Nat Nat)) 3 100).result
        = Except.error (some 3)
    ∧ (withRetry (fun k => (Except.error k : Except Nat Nat)) 3 100).invocations = 3
    ∧ (withRetry (fun k => (Except.error k : Except Nat Nat)) 3 100).waits = [100, 200]
    ∧ (withRetry (fun k => if k = 2 then Except.ok 7 else (Except.error k : Except Nat Nat))
        3 100).result = Except.ok 7 := by
  have h := C8_theorem Nat Nat 3 100 (by decide)
  have h1 := h.1 (fun k => k)
  have h2 := h.2 (fun k => if k = 2 then Except.ok 7 else Except.error k) 2 7
    (by decide) (by decide) (by rfl)
    (by
      intro j hj1 hj2
      have : j = 1 := by omega
      subst this
      exact ⟨1, rfl⟩)
  refine ⟨?_, ?_, ?_, h2.1⟩
  · rw [h1]
  · rw [h1]
  · rw [h1]
    rfl

/-! Section: Claims about the validator, sanitizer, export format and id invariant -/

/-- Claim C3 (counterexample): a record with a catalog `domainKey`, a
well-formed `date`, a numeric `score` and a 12-character `note` that
contains `javascript:` fails validation with a note error, so the claim is
false as stated: `validate` also screens the note for malicious content. -/
theorem C3_counterexample :
    hasDomain "phq-9".data = true
    ∧ isoDateValid "2024-01-15".data = true
    ∧ isNumberV (.num 12) = true
    ∧ ("javascript:x".data).length ≤ 1000
    ∧ validate ⟨.str "1".data, .str "2024-01-15".data, .str "phq-9".data, .num 12,
        .str "javascript:x".data⟩
      = ⟨false, [("note", ["Note contains potentially unsafe content"])]⟩ := by
  decide

/-- Claim C3 (amended): for every record with a non-empty id, a string date
that is a well-formed calendar date, a domainKey in the catalog, a numeric
score, and a string note of at most 1000 characters that passes the
malicious-content screening, `validate` returns `isValid = true` with an
empty errors map. -/
theorem C3_amended (idv : JSValue) (d dk n : Str) (sc : Int)
    (hid : isRequired idv = true)
    (hd : isoDateValid d = true)
    (hdk : hasDomain dk = true)
    (hn : n.length ≤ 1000)
    (hsafe : containsMaliciousStr n = false) :
    validate ⟨idv, .str d, .str dk, .num sc, .str n⟩ = ⟨true, []⟩ := by
  have hdne : d ≠ [] := by
    intro he
    subst he
    simp [isoDateValid] at hd
  have hdkne : dk ≠ [] := by
    intro he
    subst he
    rw [show hasDomain ([] : Str) = false from by decide] at hdk
    exact Bool.false_ne_true hdk
  have h1 : idErrors idv = [] := by rw [idErrors, if_pos hid]
  have h2 : dateErrors (.str d) = [] := by
    rw [dateErrors, if_pos (by simp [isRequired, hdne]), if_pos (by simpa [isDateV] using hd)]
    rfl
  have h3 : domainKeyErrors (.str dk) = [] := by
    rw [domainKeyErrors, if_pos (by simp [isRequired, hdkne]),
      if_pos (by simpa [jsToString] using hdk)]
    rfl
  have h4 : scoreErrors (.num sc) = [] := rfl
  have h5 : noteErrors (.str n) = [] := by
    rw [noteErrors, if_pos (by simpa [maxLengthV] using hn), if_pos]
    · rfl
    · rw [noteSafe]
      split
      · simp [containsMaliciousContent, hsafe]
      · rfl
  rw [validate, fieldChecks]
  simp only [h1, h2, h3, h4, h5]
  rfl

/-- Claim C3 witness: a concrete record satisfying the amended hypotheses
validates cleanly. -/
theorem C3_witness :
    validate ⟨.str "1".data, .str "2024-01-15".data, .str "phq-9".data, .num 12,
        .str "felt ok".data⟩ = ⟨true, []⟩ :=
  C3_amended (.str "1".data) "2024-01-15".data "phq-9".data "felt ok".data 12
    (by decide) (by decide) (by decide) (by decide) (by decide)

/-- Claim C5: export of a non-empty, all-valid collection is the UTF-8 BOM,
the header row, then one row per entry; each row quotes the note with
embedded quotes doubled; null/undefined fields serialize to the empty
string; and the concrete note `he said "hi", ok` yields the field
`"he said ""hi"", ok"`. -/
theorem C5_theorem (entries : List Entry) (h1 : entries ≠ [])
    (h2 : ∀ e ∈ entries, validEntry e = true) :
    exportToCSV entries
      = some ('\uFEFF' :: joinWith '\n' (csvHeader :: entries.map entryRow))
    ∧ (∀ e ∈ entries, entryRow e
        = joinWith ','
            [sanitizeCSVValue (.str e.id), sanitizeCSVValue (.str e.date),
             sanitizeCSVValue (.str e.domainKey), sanitizeCSVValue (.num e.score),
             '"' :: (doubleQuotes e.note ++ ['"'])])
    ∧ sanitizeCSVValue .null = [] ∧ sanitizeCSVValue .undef = []
    ∧ escapeCSV "he said \"hi\", ok".data = "\"he said \"\"hi\"\", ok\"".data := by
  refine ⟨?_, fun e _ => rfl, rfl, rfl, by decide⟩
  rw [exportToCSV, if_neg (by simp [h1]), List.filter_eq_self.mpr h2]

/-- Claim C5 witness: the export of a concrete singleton collection. -/
theorem C5_witness :
    exportToCSV [⟨"1".data, "2024-01-15".data, "phq-9".data, 12, "he said \"hi\", ok".data⟩]
      = some ('\uFEFF' :: joinWith '\n'
          (csvHeader :: [⟨"1".data, "2024-01-15".data, "phq-9".data, 12,
              "he said \"hi\", ok".data⟩].map entryRow))
    ∧ escapeCSV "he said \"hi\", ok".data = "\"he said \"\"hi\"\", ok\"".data := by
  have h := C5_theorem
    [⟨"1".data, "2024-01-15".data, "phq-9".data, 12, "he said \"hi\", ok".data⟩]
    (by decide) (by intro e he; fin_cases he; decide)
  exact ⟨h.1, h.2.2.2.2⟩

/-- Claim C6 (counterexample): a single left-to-right removal pass can
reassemble a forbidden pattern: sanitizing the 22-character string
`javajavascript:script:` leaves exactly `javascript:`, so the result does
contain a `javascript:` protocol prefix, contradicting the claim. -/
theorem C6_counterexample :
    sanitizeInputTS (.str "javajavascript:script:".data) = "javascript:".data
    ∧ containsCI "javascript:".data
        (sanitizeInputTS (.str "javajavascript:script:".data)) = true := by
  decide

/-- Claim C6 (amended): for string input the result contains no angle
brackets and is trimmed; the `javascript:`, `on*=` and `data:` patterns are
removed in a single pass each, which does not guarantee their absence from
the result; non-string input is returned as its string form (TypeScript
variant) or unchanged (JavaScript variant), with no stripping or trimming
applied. -/
theorem C6_amended (s : Str) (v : JSValue) (hv : ∀ t, v ≠ JSValue.str t) :
    '<' ∉ sanitizeString s
    ∧ '>' ∉ sanitizeString s
    ∧ jsTrim (sanitizeString s) = sanitizeString s
    ∧ sanitizeInputTS v = jsToString v
    ∧ sanitizeInputJS v = v := by
  have hmem : ∀ c, c ∈ sanitizeString s →
      c ∈ s.filter (fun c => !(c == '<' || c == '>')) := by
    intro c hc
    rw [sanitizeString] at hc
    have hc1 := mem_jsTrim _ c hc
    have hc2 := mem_removeAllCIGo _ _ _ c hc1
    have hc3 := mem_removeOnEqGo _ _ c hc2
    exact mem_removeAllCIGo _ _ _ c hc3
  refine ⟨?_, ?_, ?_, ?_, ?_⟩
  · intro hc
    have := List.of_mem_filter (hmem '<' hc)
    simp at this
  · intro hc
    have := List.of_mem_filter (hmem '>' hc)
    simp at this
  · rw [sanitizeString]
    exact jsTrim_idem _
  · cases v with
    | str t => exact absurd rfl (hv t)
    | num i => rfl
    | null => rfl
    | undef => rfl
  · cases v with
    | str t => exact absurd rfl (hv t)
    | num i => rfl
    | null => rfl
    | undef => rfl

/-- Claim C6 witness: the amended guarantees at a concrete string and a
concrete non-string input. -/
theorem C6_witness :
    '<' ∉ sanitizeString " <b>x</b> ".data
    ∧ jsTrim (sanitizeString " <b>x</b> ".data) = sanitizeString " <b>x</b> ".data
    ∧ sanitizeInputTS .null = jsToString .null := by
  have h := C6_amended " <b>x</b> ".data .null (by intro t h; exact JSValue.noConfusion h)
  exact ⟨h.1, h.2.2.1, h.2.2.2.1⟩

theorem importRow_nodup (st : ImportResult) (row : Str)
    (h : (st.entries.map (fun x => x.id)).Nodup) :
    ((importRow st row).entries.map (fun x => x.id)).Nodup := by
  rw [importRow]
  split
  · exact h
  · rcases hrow : parseCSVRow row with ⟨idf, datef, dkf, scf, ntf⟩
    simp only [hrow]
    split
    · split
      · exact h
      · next hany =>
        split
        · simp only [List.map_append, List.map_cons, List.map_nil]
          rw [List.nodup_append]
          refine ⟨h, List.nodup_singleton _, ?_⟩
          intro x hx hx2
          simp only [List.mem_singleton] at hx2
          subst hx2
          rw [List.mem_map] at hx
          obtain ⟨e, he, heq⟩ := hx
          apply hany
          rw [List.any_eq_true]
          exact ⟨e, he, by simp [heq]⟩
        · exact h
    · exact h

theorem foldl_importRow_nodup :
    ∀ (rows : List Str) (st : ImportResult),
      (st.entries.map (fun x => x.id)).Nodup →
      (((rows.foldl importRow st).entries).map (fun x => x.id)).Nodup := by
  intro rows
  induction rows with
  | nil => intro st h; exact h
  | cons r rs ih => intro st h; exact ih _ (importRow_nodup st r h)

/-- Claim C9 (counterexample): `addEntry` performs no duplicate-id check:
adding a valid entry whose id already occurs leaves two entries with the
same id, so the pairwise-distinct-id invariant is not preserved by every
mutating operation. -/
theorem C9_counterexample :
    (([⟨"7".data, "2024-01-15".data, "phq-9".data, 12, "ok".data⟩] : List Entry).map
        (fun e => e.id)).Nodup
    ∧ (addEntry [⟨"7".data, "2024-01-15".data, "phq-9".data, 12, "ok".data⟩]
        ⟨"7".data, "2024-01-15".data, "phq-9".data, 12, "ok".data⟩).1
      = [⟨"7".data, "2024-01-15".data, "phq-9".data, 12, "ok".data⟩,
         ⟨"7".data, "2024-01-15".data, "phq-9".data, 12, "ok".data⟩]
    ∧ ¬ ((addEntry [⟨"7".data, "2024-01-15".data, "phq-9".data, 12, "ok".data⟩]
          ⟨"7".data, "2024-01-15".data, "phq-9".data, 12, "ok".data⟩).1.map
            (fun e => e.id)).Nodup := by
  decide

/-- Claim C9 (amended): `deleteEntry` and `importFromCSV` preserve
pairwise-distinct ids from any starting collection; `addEntry` preserves
them only when the added entry's id is not already present, since it
performs no duplicate check. -/
theorem C9_amended :
    (∀ (entries : List Entry) (e : Entry),
        (entries.map (fun x => x.id)).Nodup → e.id ∉ entries.map (fun x => x.id) →
        ((addEntry entries e).1.map (fun x => x.id)).Nodup)
    ∧ (∀ (entries : List Entry) (idv : Str),
        (entries.map (fun x => x.id)).Nodup →
        ((deleteEntry entries idv).1.map (fun x => x.id)).Nodup)
    ∧ (∀ (entries : List Entry) (text : Str),
        (entries.map (fun x => x.id)).Nodup →
        ((importFromCSV entries text).entries.map (fun x => x.id)).Nodup) := by
  refine ⟨?_, ?_, ?_⟩
  · intro entries e h hnotin
    have hpush : ((entries ++ [e]).map (fun x => x.id)).Nodup := by
      simp only [List.map_append, List.map_cons, List.map_nil]
      rw [List.nodup_append]
      refine ⟨h, List.nodup_singleton _, ?_⟩
      intro x hx hx2
      simp only [List.mem_singleton] at hx2
      subst hx2
      exact hnotin hx
    rw [addEntry]
    split
    · exact h
    · split
      · split
        · exact h
        · exact hpush
      · exact hpush
  · intro entries idv h
    rw [deleteEntry]
    split
    · exact h
    · exact List.Nodup.sublist ((List.filter_sublist _).map _) h
  · intro entries text h
    rw [importFromCSV]
    split
    · exact h
    · exact foldl_importRow_nodup _ _ h

/-- Claim C9 witness: the three preservation statements at concrete
inputs. -/
theorem C9_witness :
    ((addEntry [] ⟨"7".data, "2024-01-15".data, "phq-9".data, 12, "ok".data⟩).1.map
        (fun x => x.id)).Nodup
    ∧ ((deleteEntry [⟨"7".data, "2024-01-15".data, "phq-9".data, 12, "ok".data⟩]
          "7".data).1.map (fun x => x.id)).Nodup
    ∧ ((importFromCSV [⟨"7".data, "2024-01-15".data, "phq-9".data, 12, "ok".data⟩]
          "hello".data).entries.map (fun x => x.id)).Nodup := by
  have h := C9_amended
  exact ⟨h.1 [] ⟨"7".data, "2024-01-15".data, "phq-9".data, 12, "ok".data⟩
          (by decide) (by decide),
         h.2.1 [⟨"7".data, "2024-01-15".data, "phq-9".data, 12, "ok".data⟩] "7".data
          (by decide),
         h.2.2 [⟨"7".data, "2024-01-15".data, "phq-9".data, 12, "ok".data⟩] "hello".data
          (by decide)⟩

/-! Section: CSV codec lemmas -/

theorem splitOnChar_ne_nil (c : Char) : ∀ s : Str, splitOnChar c s ≠ [] := by
  intro s
  induction s with
  | nil => simp [splitOnChar]
  | cons x r ih =>
    rw [splitOnChar]
    split
    · simp
    · cases h : splitOnChar c r with
      | nil => exact absurd h ih
      | cons p ps => simp [h]

theorem splitOnChar_sep_free (c : Char) :
    ∀ s : Str, (∀ x ∈ s, x ≠ c) → splitOnChar c s = [s] := by
  intro s
  induction s with
  | nil => intro _; rfl
  | cons x r ih =>
    intro h
    rw [splitOnChar, if_neg (h x (by simp)), ih (fun y hy => h y (by simp [hy]))]

theorem splitOnChar_append (c : Char) :
    ∀ (a r : Str), (∀ x ∈ a, x ≠ c) →
      splitOnChar c (a ++ c :: r) = a :: splitOnChar c r := by
  intro a
  induction a with
  | nil => intro r _; simp [splitOnChar]
  | cons x a' ih =>
    intro r h
    simp only [List.cons_append]
    rw [splitOnChar, if_neg (h x (by simp)), ih r (fun y hy => h y (by simp [hy]))]

theorem joinWith_cons_cons (c : Char) (l q : Str) (qs : List Str) :
    joinWith c (l :: q :: qs) = l ++ c :: joinWith c (q :: qs) := by
  rw [joinWith]
  simp

theorem joinWith_splitOnChar (c : Char) :
    ∀ s : Str, joinWith c (splitOnChar c s) = s := by
  intro s
  induction s with
  | nil => rfl
  | cons x r ih =>
    rw [splitOnChar]
    split
    · next hx =>
      subst hx
      cases h : splitOnChar x r with
      | nil => exact absurd h (splitOnChar_ne_nil x r)
      | cons p ps =>
        have hr : joinWith x (p :: ps) = r := by rw [← h]; exact ih
        rw [joinWith_cons_cons, List.nil_append, hr]
    · cases h : splitOnChar c r with
      | nil => exact absurd h (splitOnChar_ne_nil c r)
      | cons p ps =>
        have hr : joinWith c (p :: ps) = r := by rw [← h]; exact ih
        cases ps with
        | nil =>
          show joinWith c [x :: p] = x :: r
          rw [joinWith] at hr ⊢
          rw [hr]
        | cons q qs =>
          show joinWith c ((x :: p) :: q :: qs) = x :: r
          rw [joinWith_cons_cons] at hr ⊢
          rw [List.cons_append, hr]

theorem splitOnChar_joinWith (c : Char) :
    ∀ ls : List Str, ls ≠ [] → (∀ l ∈ ls, ∀ x ∈ l, x ≠ c) →
      splitOnChar c (joinWith c ls) = ls := by
  intro ls
  induction ls with
  | nil => intro h; exact absurd rfl h
  | cons l ls ih =>
    intro _ h
    cases ls with
    | nil =>
      show splitOnChar c (joinWith c [l]) = [l]
      rw [joinWith]
      exact splitOnChar_sep_free c l (h l (by simp))
    | cons m ms =>
      rw [joinWith_cons_cons, splitOnChar_append c l (joinWith c (m :: ms)) (h l (by simp)),
        ih (by simp) (fun y hy x hx => h y (by simp [hy]) x hx)]

theorem natToDigitsGo_ne_nil : ∀ (fuel n : Nat), natToDigitsGo fuel n ≠ [] := by
  intro fuel n
  cases fuel with
  | zero => simp [natToDigitsGo]
  | succ f =>
    rw [natToDigitsGo]
    split
    · simp
    · simp

theorem natToDigits_ne_nil (n : Nat) : natToDigits n ≠ [] := natToDigitsGo_ne_nil n n

theorem natToDigitsGo_chars :
    ∀ (fuel n : Nat) (c : Char), c ∈ natToDigitsGo fuel n →
      ∃ d, d < 10 ∧ c = Char.ofNat (48 + d) := by
  intro fuel
  induction fuel with
  | zero =>
    intro n c hc
    rw [natToDigitsGo] at hc
    simp at hc
    exact ⟨n % 10, Nat.mod_lt _ (by omega), hc⟩
  | succ f ih =>
    intro n c hc
    rw [natToDigitsGo] at hc
    split at hc
    · next hn =>
      simp at hc
      exact ⟨n, hn, hc⟩
    · rcases List.mem_append.mp hc with h1 | h1
      · exact ih _ c h1
      · simp at h1
        exact ⟨n % 10, Nat.mod_lt _ (by omega), h1⟩

theorem natToDigits_chars (n : Nat) (c : Char) (h : c ∈ natToDigits n) :
    ∃ d, d < 10 ∧ c = Char.ofNat (48 + d) := natToDigitsGo_chars n n c h

theorem digit_char_props :
    ∀ d, d < 10 →
      (Char.ofNat (48 + d)).isDigit = true
      ∧ isJsSpace (Char.ofNat (48 + d)) = false
      ∧ Char.ofNat (48 + d) ≠ ','
      ∧ Char.ofNat (48 + d) ≠ '\n'
      ∧ Char.ofNat (48 + d) ≠ '\r'
      ∧ Char.ofNat (48 + d) ≠ '\t'
      ∧ Char.ofNat (48 + d) ≠ '-'
      ∧ Char.ofNat (48 + d) ≠ '+'
      ∧ Char.ofNat (48 + d) ≠ '"' := by decide

theorem decDigitsGo_append :
    ∀ (a b : Str) (acc m : Nat), decDigitsGo a acc = some m →
      decDigitsGo (a ++ b) acc = decDigitsGo b m := by
  intro a
  induction a with
  | nil =>
    intro b acc m h
    simp only [decDigitsGo, Option.some.injEq] at h
    subst h
    rfl
  | cons x a' ih =>
    intro b acc m h
    rw [decDigitsGo] at h
    by_cases hx : x.isDigit
    · rw [if_pos hx] at h
      rw [List.cons_append, decDigitsGo, if_pos hx]
      exact ih b _ m h
    · rw [if_neg hx] at h
      exact absurd h (by simp)

theorem decDigitsGo_natToDigitsGo :
    ∀ (fuel n : Nat), n ≤ fuel → ∀ acc,
      ∃ B, 0 < B ∧ decDigitsGo (natToDigitsGo fuel n) acc = some (acc * B + n) := by
  intro fuel
  induction fuel with
  | zero =>
    intro n hn acc
    have hn0 : n = 0 := by omega
    subst hn0
    refine ⟨10, by omega, ?_⟩
    have hc : (Char.ofNat (48 + 0 % 10)).toNat - 48 = 0 := by decide
    have hd : (Char.ofNat (48 + 0 % 10)).isDigit = true := by decide
    rw [natToDigitsGo, decDigitsGo, if_pos hd, hc, decDigitsGo]
  | succ f ih =>
    intro n hn acc
    rw [natToDigitsGo]
    by_cases hlt : n < 10
    · rw [if_pos hlt]
      refine ⟨10, by omega, ?_⟩
      have hd := (digit_char_props n hlt).1
      have ht : (Char.ofNat (48 + n)).toNat - 48 = n := by
        have hall : ∀ d, d < 10 → (Char.ofNat (48 + d)).toNat - 48 = d := by decide
        exact hall n hlt
      rw [decDigitsGo, if_pos hd, ht, decDigitsGo]
    · rw [if_neg hlt]
      obtain ⟨B, hB, hrec⟩ := ih (n / 10) (by omega) acc
      have hd := (digit_char_props (n % 10) (Nat.mod_lt _ (by omega))).1
      have ht : (Char.ofNat (48 + n % 10)).toNat - 48 = n % 10 := by
        have hall : ∀ d, d < 10 → (Char.ofNat (48 + d)).toNat - 48 = d := by decide
        exact hall _ (Nat.mod_lt _ (by omega))
      refine ⟨B * 10, by positivity, ?_⟩
      rw [decDigitsGo_append _ _ acc _ hrec, decDigitsGo, if_pos hd, ht, decDigitsGo]
      congr 1
      calc (acc * B + n / 10) * 10 + n % 10
          = acc * (B * 10) + (10 * (n / 10) + n % 10) := by ring
        _ = acc * (B * 10) + n := by rw [Nat.div_add_mod]

theorem decDigits_natToDigits (n : Nat) : decDigits (natToDigits n) = some n := by
  obtain ⟨B, _, h⟩ := decDigitsGo_natToDigitsGo n n (le_refl n) 0
  show decDigits (natToDigitsGo n n) = some n
  rw [decDigits, if_neg (by simp [List.isEmpty_iff, natToDigitsGo_ne_nil]), h,
    Nat.zero_mul, Nat.zero_add]

theorem intToStr_chars (i : Int) :
    ∀ c ∈ intToStr i, (∃ d, d < 10 ∧ c = Char.ofNat (48 + d)) ∨ c = '-' := by
  intro c hc
  unfold intToStr at hc
  split at hc
  · rcases List.mem_cons.mp hc with rfl | h1
    · exact Or.inr rfl
    · exact Or.inl (natToDigits_chars _ c h1)
  · exact Or.inl (natToDigits_chars _ c hc)

theorem intToStr_ne_nil (i : Int) : intToStr i ≠ [] := by
  unfold intToStr
  split
  · simp
  · exact natToDigits_ne_nil _

theorem intToStr_clean (i : Int) :
    ∀ c ∈ intToStr i,
      isJsSpace c = false ∧ c ≠ ',' ∧ c ≠ '\n' ∧ c ≠ '\r' ∧ c ≠ '\t' := by
  intro c hc
  rcases intToStr_chars i c hc with ⟨d, hd, rfl⟩ | rfl
  · obtain ⟨_, h2, h3, h4, h5, h6, _⟩ := digit_char_props d hd
    exact ⟨h2, h3, h4, h5, h6⟩
  · exact ⟨by decide, by decide, by decide, by decide, by decide⟩

theorem mem_of_head?_eq (s : Str) (c : Char) (h : s.head? = some c) : c ∈ s := by
  cases s with
  | nil => simp at h
  | cons x r =>
    simp only [List.head?_cons, Option.some.injEq] at h
    subst h
    exact List.mem_cons_self _ _

theorem jsTrim_all_nonspace (s : Str) (h : ∀ c ∈ s, isJsSpace c = false) :
    jsTrim s = s := by
  rw [jsTrim,
    dropWhile_of_head_false _ _ (fun c hc => h c (mem_of_head?_eq s c hc)),
    dropWhile_of_head_false _ _ (fun c hc => h c (by
      have hm := mem_of_head?_eq _ c hc
      rwa [List.mem_reverse] at hm)),
    List.reverse_reverse]

theorem jsTrim_intToStr (i : Int) : jsTrim (intToStr i) = intToStr i :=
  jsTrim_all_nonspace _ (fun c hc => (intToStr_clean i c hc).1)

theorem parseIntLit_intToStr (i : Int) : parseIntLit (intToStr i) = some i := by
  by_cases hneg : i < 0
  · rw [intToStr, if_pos hneg, parseIntLit, if_pos rfl, decDigits_natToDigits]
    show some (-((i.natAbs : Nat) : Int)) = some i
    congr 1
    omega
  · rw [intToStr, if_neg hneg]
    obtain ⟨c, cs, d, hd, hceq, hlist⟩ :
        ∃ c cs d, d < 10 ∧ c = Char.ofNat (48 + d) ∧ natToDigits i.natAbs = c :: cs := by
      cases h : natToDigits i.natAbs with
      | nil => exact absurd h (natToDigits_ne_nil _)
      | cons c cs =>
        obtain ⟨d, hd, hc⟩ := natToDigits_chars _ c (by rw [h]; exact List.mem_cons_self _ _)
        exact ⟨c, cs, d, hd, hc, rfl⟩
    rw [hlist, parseIntLit, if_neg ?hne1, if_neg ?hne2]
    case hne1 =>
      subst hceq
      exact (digit_char_props d hd).2.2.2.2.2.2.1
    case hne2 =>
      subst hceq
      exact (digit_char_props d hd).2.2.2.2.2.2.2.1
    rw [← hlist, decDigits_natToDigits]
    show some (((i.natAbs : Nat) : Int)) = some i
    congr 1
    omega

theorem jsNumber_intToStr (i : Int) : jsNumber (intToStr i) = some i := by
  unfold jsNumber
  rw [jsTrim_intToStr]
  rw [if_neg (by simp [List.isEmpty_iff, intToStr_ne_nil])]
  exact parseIntLit_intToStr i

theorem csvCleanField_spec (s : Str) (h : csvCleanField s = true) :
    s ≠ [] ∧ jsTrim s = s
      ∧ ∀ c ∈ s, c ≠ ',' ∧ c ≠ '\n' ∧ c ≠ '\r' ∧ c ≠ '\t' := by
  rw [csvCleanField] at h
  simp only [Bool.and_eq_true, Bool.not_eq_true', beq_iff_eq, List.all_eq_true] at h
  obtain ⟨⟨h1, h2⟩, h3⟩ := h
  refine ⟨?_, h2, ?_⟩
  · intro he
    subst he
    simp at h1
  · intro c hc
    have h4 := h3 c hc
    refine ⟨?_, ?_, ?_, ?_⟩ <;> (intro he; subst he; simp at h4)

theorem csvRoundSafe_spec (e : Entry) (h : csvRoundSafe e = true) :
    validEntry e = true ∧ csvCleanField e.id = true ∧ csvCleanField e.date = true
      ∧ csvCleanField e.domainKey = true ∧ ∀ c ∈ e.note, c ≠ '\n' := by
  rw [csvRoundSafe] at h
  simp only [Bool.and_eq_true, List.all_eq_true] at h
  obtain ⟨⟨⟨⟨h1, h2⟩, h3⟩, h4⟩, h5⟩ := h
  refine ⟨h1, h2, h3, h4, fun c hc he => ?_⟩
  have h6 := h5 c hc
  subst he
  simp at h6

theorem validEntry_fields (e : Entry) (h : validEntry e = true) :
    idErrors (.str e.id) = [] ∧ dateErrors (.str e.date) = []
      ∧ domainKeyErrors (.str e.domainKey) = [] ∧ scoreErrors (.num e.score) = []
      ∧ noteErrors (.str e.note) = [] := by
  rw [validEntry, validate] at h
  simp only [fieldChecks, Entry.toRecord, List.all_cons, List.all_nil,
    Bool.and_eq_true, List.isEmpty_iff] at h
  exact ⟨h.1, h.2.1, h.2.2.1, h.2.2.2.1, h.2.2.2.2.1⟩

theorem hasDomain_of_validEntry (e : Entry) (h : validEntry e = true) :
    hasDomain e.domainKey = true := by
  have h3 := (validEntry_fields e h).2.2.1
  rw [domainKeyErrors] at h3
  rcases List.append_eq_nil.mp h3 with ⟨_, h5⟩
  by_cases hd : hasDomain (jsToString (.str e.domainKey)) = true
  · exact hd
  · rw [if_neg hd] at h5
    exact absurd h5 (by simp)

theorem mem_doubleQuotes (s : Str) (c : Char) :
    c ∈ doubleQuotes s → c ∈ s ∨ c = '"' := by
  induction s with
  | nil => intro h; simp [doubleQuotes] at h
  | cons x r ih =>
    intro h
    rw [doubleQuotes] at h
    split at h
    · next hx =>
      subst hx
      rcases List.mem_cons.mp h with rfl | h1
      · exact Or.inr rfl
      rcases List.mem_cons.mp h1 with rfl | h2
      · exact Or.inr rfl
      rcases ih h2 with h3 | h3
      · exact Or.inl (List.mem_cons_of_mem _ h3)
      · exact Or.inr h3
    · rcases List.mem_cons.mp h with rfl | h1
      · exact Or.inl (List.mem_cons_self _ _)
      rcases ih h1 with h3 | h3
      · exact Or.inl (List.mem_cons_of_mem _ h3)
      · exact Or.inr h3

theorem doubleQuotes_ne_nil (x : Char) (r : Str) : doubleQuotes (x :: r) ≠ [] := by
  rw [doubleQuotes]
  split <;> simp

theorem unescapeQuotes_doubleQuotes (s : Str) : unescapeQuotes (doubleQuotes s) = s := by
  induction s with
  | nil => rfl
  | cons x r ih =>
    rw [doubleQuotes]
    split
    · next hx =>
      subst hx
      rw [unescapeQuotes, if_pos ⟨rfl, rfl⟩, ih]
    · next hx =>
      cases hdq : doubleQuotes r with
      | nil =>
        cases r with
        | nil => rfl
        | cons y rs => exact absurd hdq (doubleQuotes_ne_nil y rs)
      | cons y dqr =>
        rw [hdq] at ih
        rw [unescapeQuotes, if_neg (fun hc => hx hc.1), ih]

theorem escapeCSV_ne_nil (s : Str) : escapeCSV s ≠ [] := by
  rw [escapeCSV]
  simp

theorem escapeCSV_getLast (s : Str) : (escapeCSV s).getLast? = some '"' := by
  rw [escapeCSV, ← List.cons_append, List.getLast?_concat]

theorem stripQuotesEnds_escape (s : Str) :
    stripQuotesEnds (escapeCSV s) = doubleQuotes s := by
  have hne : escapeCSV s ≠ ['"'] := by
    intro h
    have h2 := congrArg List.length h
    rw [escapeCSV] at h2
    simp at h2
  rw [escapeCSV] at hne ⊢
  simp only [stripQuotesEnds]
  rw [if_neg hne,
    show ('"' :: (doubleQuotes s ++ ['"'])).head? = some '"' from rfl,
    show ('"' :: (doubleQuotes s ++ ['"'])).drop 1 = doubleQuotes s ++ ['"'] from rfl,
    if_pos (rfl : (some '"' : Option Char) = some '"'), List.getLast?_concat,
    if_pos (rfl : (some '"' : Option Char) = some '"')]
  exact List.dropLast_concat ..

theorem importNote_escape (s : Str) : importNote (escapeCSV s) = s := by
  rw [importNote, if_neg (by simp [escapeCSV]), stripQuotesEnds_escape,
    unescapeQuotes_doubleQuotes]

theorem jsTrim_of_ends (s : Str)
    (hh : ∀ c, s.head? = some c → isJsSpace c = false)
    (hl : ∀ c, s.getLast? = some c → isJsSpace c = false) :
    jsTrim s = s := by
  rw [jsTrim, dropWhile_of_head_false _ _ hh,
    dropWhile_of_head_false _ _ (fun c hc => hl c (by rwa [List.head?_reverse] at hc)),
    List.reverse_reverse]

theorem jsTrim_escape (s : Str) : jsTrim (escapeCSV s) = escapeCSV s := by
  apply jsTrim_of_ends
  · intro c hc
    rw [escapeCSV] at hc
    simp only [List.head?_cons, Option.some.injEq] at hc
    subst hc
    decide
  · intro c hc
    rw [escapeCSV_getLast] at hc
    simp only [Option.some.injEq] at hc
    subst hc
    decide

theorem map_id_of_forall (f : Char → Char) (s : Str) (h : ∀ c ∈ s, f c = c) :
    s.map f = s := by
  induction s with
  | nil => rfl
  | cons x r ih =>
    rw [List.map_cons, h x (by simp), ih (fun c hc => h c (by simp [hc]))]

theorem sanitizeCSVValue_clean (s : Str) (h : csvCleanField s = true) :
    sanitizeCSVValue (.str s) = s := by
  obtain ⟨_, htrim, hchars⟩ := csvCleanField_spec s h
  show jsTrim (s.map (fun c => if c == '\r' || c == '\n' || c == '\t' then ' ' else c)) = s
  rw [map_id_of_forall _ _ ?hmap, htrim]
  case hmap =>
    intro c hc
    obtain ⟨_, hn, hr, ht⟩ := hchars c hc
    simp [hn, hr, ht]

theorem sanitizeCSVValue_num (i : Int) : sanitizeCSVValue (.num i) = intToStr i := by
  show jsTrim ((intToStr i).map
      (fun c => if c == '\r' || c == '\n' || c == '\t' then ' ' else c)) = intToStr i
  rw [map_id_of_forall _ _ ?hmap, jsTrim_intToStr]
  case hmap =>
    intro c hc
    obtain ⟨_, hn, hr, ht⟩ := intToStr_clean i c hc
    simp [hn, hr, ht]

theorem joinWith_singleton (c : Char) (l : Str) : joinWith c [l] = l := rfl

theorem entryRow_eq (e : Entry) (h : csvRoundSafe e = true) :
    entryRow e = e.id ++ ',' :: (e.date ++ ',' :: (e.domainKey ++ ',' ::
      (intToStr e.score ++ ',' :: escapeCSV e.note))) := by
  obtain ⟨_, hid, hdate, hdk, _⟩ := csvRoundSafe_spec e h
  rw [entryRow, joinWith_cons_cons, joinWith_cons_cons, joinWith_cons_cons,
    joinWith_cons_cons, joinWith_singleton,
    sanitizeCSVValue_clean _ hid, sanitizeCSVValue_clean _ hdate,
    sanitizeCSVValue_clean _ hdk, sanitizeCSVValue_num]

theorem splitOnChar_entryRow (e : Entry) (h : csvRoundSafe e = true) :
    splitOnChar ',' (entryRow e)
      = e.id :: e.date :: e.domainKey :: intToStr e.score
          :: splitOnChar ',' (escapeCSV e.note) := by
  obtain ⟨_, hid, hdate, hdk, _⟩ := csvRoundSafe_spec e h
  obtain ⟨_, _, hidc⟩ := csvCleanField_spec _ hid
  obtain ⟨_, _, hdatec⟩ := csvCleanField_spec _ hdate
  obtain ⟨_, _, hdkc⟩ := csvCleanField_spec _ hdk
  rw [entryRow_eq e h,
    splitOnChar_append ',' e.id _ (fun x hx => (hidc x hx).1),
    splitOnChar_append ',' e.date _ (fun x hx => (hdatec x hx).1),
    splitOnChar_append ',' e.domainKey _ (fun x hx => (hdkc x hx).1),
    splitOnChar_append ',' (intToStr e.score) _ (fun x hx => (intToStr_clean _ x hx).2.1)]

theorem parseCSVRow_entryRow (e : Entry) (h : csvRoundSafe e = true) :
    parseCSVRow (entryRow e)
      = (e.id, e.date, e.domainKey, intToStr e.score, escapeCSV e.note) := by
  obtain ⟨_, hid, hdate, hdk, _⟩ := csvRoundSafe_spec e h
  obtain ⟨_, hidt, _⟩ := csvCleanField_spec _ hid
  obtain ⟨_, hdatet, _⟩ := csvCleanField_spec _ hdate
  obtain ⟨_, hdkt, _⟩ := csvCleanField_spec _ hdk
  rw [parseCSVRow, splitOnChar_entryRow e h]
  simp only [List.getD_cons_zero, List.getD_cons_succ, List.drop_succ_cons, List.drop_zero]
  rw [joinWith_splitOnChar, hidt, hdatet, hdkt, jsTrim_intToStr, jsTrim_escape]

theorem head_nonspace_of_trimmed (x : Char) (xs : Str) (h : jsTrim (x :: xs) = x :: xs) :
    isJsSpace x = false := by
  by_contra hx
  rw [Bool.not_eq_false] at hx
  have h1 : (x :: xs).dropWhile isJsSpace = xs.dropWhile isJsSpace := by
    rw [List.dropWhile_cons, if_pos hx]
  have hlen : (jsTrim (x :: xs)).length ≤ xs.length := by
    rw [jsTrim, h1]
    calc ((xs.dropWhile isJsSpace).reverse.dropWhile isJsSpace).reverse.length
        = ((xs.dropWhile isJsSpace).reverse.dropWhile isJsSpace).length :=
          List.length_reverse _
      _ ≤ (xs.dropWhile isJsSpace).reverse.length := (List.dropWhile_sublist _).length_le
      _ = (xs.dropWhile isJsSpace).length := List.length_reverse _
      _ ≤ xs.length := (List.dropWhile_sublist _).length_le
  rw [h] at hlen
  simp only [List.length_cons] at hlen
  omega

theorem entryRow_nonblank (e : Entry) (h : csvRoundSafe e = true) :
    jsTrim (entryRow e) ≠ [] := by
  obtain ⟨_, hid, _, _, _⟩ := csvRoundSafe_spec e h
  obtain ⟨hne, htrim, _⟩ := csvCleanField_spec _ hid
  rw [entryRow_eq e h]
  cases hcase : e.id with
  | nil => exact absurd hcase hne
  | cons x xs =>
    rw [List.cons_append]
    apply jsTrim_ne_nil_of_head
    apply head_nonspace_of_trimmed x xs
    rw [← hcase]
    exact htrim

theorem mem_escapeCSV (s : Str) (c : Char) (h : c ∈ escapeCSV s) : c ∈ s ∨ c = '"' := by
  rw [escapeCSV] at h
  rcases List.mem_cons.mp h with rfl | h1
  · exact Or.inr rfl
  rcases List.mem_append.mp h1 with h2 | h2
  · exact mem_doubleQuotes s c h2
  · simp at h2
    exact Or.inr h2

theorem entryRow_no_lf (e : Entry) (h : csvRoundSafe e = true) :
    ∀ c ∈ entryRow e, c ≠ '\n' := by
  obtain ⟨_, hid, hdate, hdk, hnote⟩ := csvRoundSafe_spec e h
  obtain ⟨_, _, hidc⟩ := csvCleanField_spec _ hid
  obtain ⟨_, _, hdatec⟩ := csvCleanField_spec _ hdate
  obtain ⟨_, _, hdkc⟩ := csvCleanField_spec _ hdk
  rw [entryRow_eq e h]
  intro c hc
  simp only [List.mem_append, List.mem_cons] at hc
  rcases hc with h1 | h1
  · exact (hidc c h1).2.1
  rcases h1 with rfl | h1
  · decide
  rcases h1 with h1 | h1
  · exact (hdatec c h1).2.1
  rcases h1 with rfl | h1
  · decide
  rcases h1 with h1 | h1
  · exact (hdkc c h1).2.1
  rcases h1 with rfl | h1
  · decide
  rcases h1 with h1 | h1
  · exact (intToStr_clean _ c h1).2.2.1
  rcases h1 with rfl | h1
  · decide
  rcases mem_escapeCSV _ c h1 with h2 | rfl
  · exact hnote c h2
  · decide

theorem isEmpty_false_of_ne_nil (s : Str) (h : s ≠ []) : s.isEmpty = false := by
  cases s with
  | nil => exact absurd rfl h
  | cons x r => rfl

theorem isValidImportRow_entry (e : Entry) (h : csvRoundSafe e = true) :
    isValidImportRow e.id e.date e.domainKey (intToStr e.score) = true := by
  obtain ⟨hv, hid, hdate, hdk, _⟩ := csvRoundSafe_spec e h
  obtain ⟨hidne, _, _⟩ := csvCleanField_spec _ hid
  obtain ⟨hdatene, _, _⟩ := csvCleanField_spec _ hdate
  obtain ⟨hdkne, _, _⟩ := csvCleanField_spec _ hdk
  rw [isValidImportRow, isEmpty_false_of_ne_nil _ hidne,
    isEmpty_false_of_ne_nil _ hdatene, isEmpty_false_of_ne_nil _ hdkne,
    isEmpty_false_of_ne_nil _ (intToStr_ne_nil e.score),
    hasDomain_of_validEntry e hv, jsNumber_intToStr]
  rfl

theorem importRow_fresh (cur : List Entry) (k sk : Nat) (e : Entry)
    (h : csvRoundSafe e = true) (hnew : e.id ∉ cur.map (fun x => x.id)) :
    importRow ⟨cur, k, sk⟩ (entryRow e) = ⟨cur ++ [e], k + 1, sk⟩ := by
  have hv : validEntry e = true := (csvRoundSafe_spec e h).1
  have hdup : ¬ (cur.any (fun x => x.id == e.id) = true) := by
    intro hany
    rw [List.any_eq_true] at hany
    obtain ⟨x, hx, hbeq⟩ := hany
    rw [beq_iff_eq] at hbeq
    exact hnew (List.mem_map.mpr ⟨x, hx, hbeq⟩)
  rw [importRow, if_neg (by
      simp only [List.isEmpty_iff]
      exact entryRow_nonblank e h),
    parseCSVRow_entryRow e h]
  dsimp only
  rw [if_pos (isValidImportRow_entry e h), if_neg hdup, jsNumber_intToStr,
    Option.getD_some, importNote_escape,
    if_pos (show validEntry ⟨e.id, e.date, e.domainKey, e.score, e.note⟩ = true from hv)]

theorem importRow_dup (cur : List Entry) (k sk : Nat) (e : Entry)
    (h : csvRoundSafe e = true) (hdup : e.id ∈ cur.map (fun x => x.id)) :
    importRow ⟨cur, k, sk⟩ (entryRow e) = ⟨cur, k, sk + 1⟩ := by
  have hany : cur.any (fun x => x.id == e.id) = true := by
    rw [List.any_eq_true]
    obtain ⟨x, hx, hxe⟩ := List.mem_map.mp hdup
    exact ⟨x, hx, by rw [beq_iff_eq]; exact hxe⟩
  rw [importRow, if_neg (by
      simp only [List.isEmpty_iff]
      exact entryRow_nonblank e h),
    parseCSVRow_entryRow e h]
  dsimp only
  rw [if_pos (isValidImportRow_entry e h), if_pos hany]

theorem foldl_import_fresh :
    ∀ (todo done : List Entry) (k sk : Nat),
      (∀ e ∈ todo, csvRoundSafe e = true) →
      ((done ++ todo).map (fun x => x.id)).Nodup →
      (todo.map entryRow).foldl importRow ⟨done, k, sk⟩
        = ⟨done ++ todo, k + todo.length, sk⟩ := by
  intro todo
  induction todo with
  | nil =>
    intro done k sk _ _
    simp
  | cons e todo ih =>
    intro done k sk hwf hnd
    have hnew : e.id ∉ done.map (fun x => x.id) := by
      intro hmem
      rw [List.map_append, List.nodup_append] at hnd
      exact hnd.2.2 hmem (by simp)
    rw [List.map_cons, List.foldl_cons,
      importRow_fresh done k sk e (hwf e (by simp)) hnew]
    have hres := ih (done ++ [e]) (k + 1) sk (fun x hx => hwf x (by simp [hx]))
      (by rw [List.append_assoc]; exact hnd)
    rw [hres, List.append_assoc]
    have hlen : k + 1 + todo.length = k + (e :: todo).length := by
      simp only [List.length_cons]
      omega
    rw [hlen]
    rfl

theorem foldl_import_dup :
    ∀ (todo cur : List Entry) (k sk : Nat),
      (∀ e ∈ todo, csvRoundSafe e = true ∧ e.id ∈ cur.map (fun x => x.id)) →
      (todo.map entryRow).foldl importRow ⟨cur, k, sk⟩ = ⟨cur, k, sk + todo.length⟩ := by
  intro todo
  induction todo with
  | nil =>
    intro cur k sk _
    simp
  | cons e todo ih =>
    intro cur k sk hwf
    rw [List.map_cons, List.foldl_cons,
      importRow_dup cur k sk e (hwf e (by simp)).1 (hwf e (by simp)).2]
    rw [ih cur k (sk + 1) (fun x hx => hwf x (by simp [hx]))]
    have hlen : sk + 1 + todo.length = sk + (e :: todo).length := by
      simp only [List.length_cons]
      omega
    rw [hlen]

theorem export_rows (entries : List Entry) (hne : entries ≠ [])
    (hwf : ∀ e ∈ entries, csvRoundSafe e = true) :
    exportToCSV entries
      = some ('\uFEFF' :: joinWith '\n' (csvHeader :: entries.map entryRow))
    ∧ (splitOnChar '\n'
        ('\uFEFF' :: joinWith '\n' (csvHeader :: entries.map entryRow))).drop 1
        = entries.map entryRow
    ∧ jsTrim ('\uFEFF' :: joinWith '\n' (csvHeader :: entries.map entryRow)) ≠ [] := by
  have hval : ∀ e ∈ entries, validEntry e = true :=
    fun e he => (csvRoundSafe_spec e (hwf e he)).1
  refine ⟨?_, ?_, jsTrim_ne_nil_of_head _ _ (by decide)⟩
  · rw [exportToCSV, if_neg (by simp [hne]), List.filter_eq_self.mpr hval]
  · have htext : '\uFEFF' :: joinWith '\n' (csvHeader :: entries.map entryRow)
        = joinWith '\n' (('\uFEFF' :: csvHeader) :: entries.map entryRow) := by
      cases hmap : entries.map entryRow with
      | nil => rfl
      | cons r rs =>
        rw [joinWith_cons_cons, joinWith_cons_cons, List.cons_append]
    rw [htext, splitOnChar_joinWith '\n' _ (by simp) ?hfree, List.drop_one,
      List.tail_cons]
    case hfree =>
      intro l hl x hx
      rcases List.mem_cons.mp hl with rfl | hl2
      · rcases List.mem_cons.mp hx with rfl | hx2
        · decide
        · have hcsv : ∀ y ∈ csvHeader, y ≠ '\n' := by decide
          exact hcsv x hx2
      · rw [List.mem_map] at hl2
        obtain ⟨e, he, rfl⟩ := hl2
        exact entryRow_no_lf e (hwf e he) x hx

/-- Claim C2 (counterexample): a valid entry whose note contains a newline
does not round-trip: the exported row spans two lines, the import of the
export of the singleton collection produces an entry with a truncated note,
and the original entry is not in the resulting collection. -/
theorem C2_counterexample :
    validEntry ⟨"1".data, "2024-01-15".data, "phq-9".data, 12, "a\nb".data⟩ = true
    ∧ (importFromCSV [] ((exportToCSV
          [⟨"1".data, "2024-01-15".data, "phq-9".data, 12, "a\nb".data⟩]).getD [])).entries
        = [⟨"1".data, "2024-01-15".data, "phq-9".data, 12, "a".data⟩]
    ∧ (⟨"1".data, "2024-01-15".data, "phq-9".data, 12, "a\nb".data⟩ : Entry)
        ∉ (importFromCSV [] ((exportToCSV
            [⟨"1".data, "2024-01-15".data, "phq-9".data, 12, "a\nb".data⟩]).getD [])).entries := by
  decide

/-- Claim C2 (amended): for every non-empty collection of at most 10000
entries that all pass validation, whose id values are pairwise distinct,
whose id/date/domainKey fields are trimmed and free of comma, CR, LF and
TAB, and whose notes contain no LF, exporting to CSV and importing the text
into a fresh empty collection reproduces exactly the original entries (in
order, hence as a set), with every field value equal. -/
theorem C2_amended (entries : List Entry) (hne : entries ≠ [])
    (hlen : entries.length ≤ maxImportRows)
    (hwf : ∀ e ∈ entries, csvRoundSafe e = true)
    (hids : (entries.map (fun x => x.id)).Nodup) :
    ∃ text, exportToCSV entries = some text
      ∧ importFromCSV [] text = ⟨entries, entries.length, 0⟩ := by
  obtain ⟨hexp, hrows, hnb⟩ := export_rows entries hne hwf
  refine ⟨_, hexp, ?_⟩
  rw [importFromCSV, if_neg (by simp only [List.isEmpty_iff]; exact hnb), hrows,
    List.take_of_length_le (by simpa using hlen)]
  have hfold := foldl_import_fresh entries [] 0 0 hwf (by simpa using hids)
  simpa using hfold

/-- Claim C2 witness: a concrete singleton collection with a note containing
a comma and quotes round-trips exactly. -/
theorem C2_witness :
    importFromCSV [] ((exportToCSV
        [⟨"100".data, "2024-01-15".data, "phq-9".data, 12, "he said \"hi\", ok".data⟩]).getD [])
      = ⟨[⟨"100".data, "2024-01-15".data, "phq-9".data, 12, "he said \"hi\", ok".data⟩], 1, 0⟩ := by
  obtain ⟨text, hexp, himp⟩ := C2_amended
    [⟨"100".data, "2024-01-15".data, "phq-9".data, 12, "he said \"hi\", ok".data⟩]
    (by decide) (by decide) (by intro e he; fin_cases he; decide) (by decide)
  rw [hexp]
  simpa using himp

/-- Claim C4 (counterexample): in the round-trip scenario with a
newline-containing note, the exported file has a data row (`b"`) whose
parsed id does not exist in the already-populated target collection, so the
claim's assertion that every row's id already exists is false — even though
the second import still imports nothing and leaves the collection
unchanged. -/
theorem C4_counterexample :
    (splitOnChar '\n' ((exportToCSV
        [⟨"1".data, "2024-01-15".data, "phq-9".data, 12, "a\nb".data⟩]).getD [])).drop 1
      = ["1,2024-01-15,phq-9,12,\"a".data, "b\"".data]
    ∧ jsTrim "b\"".data ≠ []
    ∧ (parseCSVRow "b\"".data).1 = "b\"".data
    ∧ "b\"".data ∉ ((importFromCSV [] ((exportToCSV
        [⟨"1".data, "2024-01-15".data, "phq-9".data, 12, "a\nb".data⟩]).getD [])).entries.map
          (fun x => x.id))
    ∧ importFromCSV
        (importFromCSV [] ((exportToCSV
          [⟨"1".data, "2024-01-15".data, "phq-9".data, 12, "a\nb".data⟩]).getD [])).entries
        ((exportToCSV
          [⟨"1".data, "2024-01-15".data, "phq-9".data, 12, "a\nb".data⟩]).getD [])
      = ⟨(importFromCSV [] ((exportToCSV
          [⟨"1".data, "2024-01-15".data, "phq-9".data, 12, "a\nb".data⟩]).getD [])).entries,
         0, 2⟩ := by
  decide

/-- Claim C4 (amended): under the round-trip well-formedness hypotheses of
the amended C2, importing the same exported text a second time into the
already-populated collection adds zero entries: every data row's id already
exists in the target collection, each row is skipped, the collection is
unchanged, and the operation reports `importedCount = 0` and `skippedCount`
equal to the number of data rows. -/
theorem C4_amended (entries : List Entry) (hne : entries ≠ [])
    (hlen : entries.length ≤ maxImportRows)
    (hwf : ∀ e ∈ entries, csvRoundSafe e = true) :
    ∃ text, exportToCSV entries = some text
      ∧ (∀ row ∈ (splitOnChar '\n' text).drop 1,
          (parseCSVRow row).1 ∈ entries.map (fun x => x.id))
      ∧ (splitOnChar '\n' text).drop 1 = entries.map entryRow
      ∧ importFromCSV entries text = ⟨entries, 0, entries.length⟩ := by
  obtain ⟨hexp, hrows, hnb⟩ := export_rows entries hne hwf
  refine ⟨_, hexp, ?_, hrows, ?_⟩
  · intro row hrow
    rw [hrows, List.mem_map] at hrow
    obtain ⟨e, he, rfl⟩ := hrow
    rw [parseCSVRow_entryRow e (hwf e he)]
    exact List.mem_map.mpr ⟨e, he, rfl⟩
  · rw [importFromCSV, if_neg (by simp only [List.isEmpty_iff]; exact hnb), hrows,
      List.take_of_length_le (by simpa using hlen)]
    have hfold := foldl_import_dup entries entries 0 0
      (fun e he => ⟨hwf e he, List.mem_map.mpr ⟨e, he, rfl⟩⟩)
    simpa using hfold

/-- Claim C4 witness: re-importing the export of a concrete singleton
collection into it imports nothing and skips its one data row. -/
theorem C4_witness :
    importFromCSV [⟨"100".data, "2024-01-15".data, "phq-9".data, 12, "he said \"hi\", ok".data⟩]
      ((exportToCSV
        [⟨"100".data, "2024-01-15".data, "phq-9".data, 12, "he said \"hi\", ok".data⟩]).getD [])
      = ⟨[⟨"100".data, "2024-01-15".data, "phq-9".data, 12, "he said \"hi\", ok".data⟩], 0, 1⟩ := by
  obtain ⟨text, hexp, _, _, himp⟩ := C4_amended
    [⟨"100".data, "2024-01-15".data, "phq-9".data, 12, "he said \"hi\", ok".data⟩]
    (by decide) (by decide) (by intro e he; fin_cases he; decide)
  rw [hexp]
  simpa using himp

end QuickMH
